import Mathlib

/-!
Verification of the core of the `ecs.hpp` entity-component-system library.

The development shallowly embeds the relevant parts of the C++ header
`src/headers/ecs.hpp/ecs.hpp`:

* the 32-bit entity-id codec (index/version packing, `upgrade_entity_id`);
* `detail::sparse_set` (dense array plus sparse back-index);
* `detail::sparse_map` (a sparse set of keys plus a lock-step value vector);
* the registry's entity allocation (`create_entity` / `destroy_entity` with
  the free-id stack and its capacity budget), liveness (`valid_entity`),
  per-component storages and the joined-iteration primitive
  `for_joined_components`;
* `feature::process_event` (three-phase before/main/after dispatch);
* `prototype::apply_to_entity` (type-erased appliers with an override flag).

Machine integers are modelled as `Nat` with explicit `% 2 ^ 32` where the
C++ `std::uint32_t` arithmetic can overflow.  Fallible operations return
`Option`.
-/

namespace EcsHpp

/-! ### Entity-id codec

From the source: `entity_id` is `std::uint32_t`, split into a 22-bit index
(low bits) and a 10-bit version (high bits).  `entity_id_join` computes
`index | (version << 22)` in `uint32` arithmetic, hence the `% 2 ^ 32`. -/

def entity_id_index_bits : Nat := 22

def entity_id_version_bits : Nat := 10

def entity_id_index_mask : Nat := (1 <<< entity_id_index_bits) - 1

def entity_id_version_mask : Nat := (1 <<< entity_id_version_bits) - 1

def entity_id_index (id : Nat) : Nat :=
  id &&& entity_id_index_mask

def entity_id_version (id : Nat) : Nat :=
  (id >>> entity_id_index_bits) &&& entity_id_version_mask

def entity_id_join (index version : Nat) : Nat :=
  (index ||| ((version <<< entity_id_index_bits) % 2 ^ 32)) % 2 ^ 32

def upgrade_entity_id (id : Nat) : Nat :=
  entity_id_join (entity_id_index id) ((entity_id_version id + 1) % 2 ^ 32)

/-- `sparse_indexer<T>` for unsigned integral `T`: the identity cast. -/
def sparse_indexer (v : Nat) : Nat := v

/-- `entity_id_indexer`: liveness lookups are keyed by the index field only. -/
def entity_id_indexer (id : Nat) : Nat := entity_id_index id

/-! ### `detail::sparse_set`

`dense_` is the packed array of stored values, `sparse_` maps `indexer(v)` to
the dense position of `v`.  `sparse_` grows on demand through
`next_capacity_size`; `std::vector::resize` value-initialises new slots, so
the Lean resize pads with `0`.  `M` stands for `sparse_.max_size()`;
`Option.none` models a thrown exception, which leaves the set unchanged. -/

/-- `next_capacity_size(cur, min, max)`; `none` models the thrown
`std::length_error` when `min_size > max_size`. -/
def next_capacity_size (cur_size min_size max_size : Nat) : Option Nat :=
  if min_size > max_size then none
  else if cur_size ≥ max_size / 2 then some max_size
  else some (Nat.max (cur_size * 2) min_size)

structure SparseSet where
  dense : List Nat
  sparse : List Nat
  deriving Repr, DecidableEq

namespace SparseSet

/-- The empty sparse set (default-constructed). -/
def mk0 : SparseSet := ⟨[], []⟩

/-- `has(v)`: `vi < sparse_.size() && sparse_[vi] < dense_.size() &&
dense_[sparse_[vi]] == v`. -/
def has (ix : Nat → Nat) (s : SparseSet) (v : Nat) : Bool :=
  decide (ix v < s.sparse.length) &&
  decide (s.sparse.getD (ix v) 0 < s.dense.length) &&
  decide (s.dense.getD (s.sparse.getD (ix v) 0) 0 = v)

/-- `std::vector::resize`: truncate or pad with value-initialised zeros. -/
def resizeTo (l : List Nat) (n : Nat) : List Nat :=
  l.take n ++ List.replicate (n - l.length) 0

/-- `insert(v)`: grow `sparse_` to cover `indexer(v)`, append to `dense_`,
record the back-pointer.  Returns `none` when `next_capacity_size` throws. -/
def insert (ix : Nat → Nat) (M : Nat) (s : SparseSet) (v : Nat) :
    Option (SparseSet × Bool) :=
  if s.has ix v then some (s, false)
  else
    (if s.sparse.length ≤ ix v then
        (next_capacity_size s.sparse.length (ix v + 1) M).map (resizeTo s.sparse)
      else some s.sparse).map fun sp =>
      ({ dense := s.dense ++ [v], sparse := sp.set (ix v) s.dense.length }, true)

/-- `unordered_erase(v)`: swap the slot with the dense back, fix the moved
value's back-pointer, pop. -/
def unordered_erase (ix : Nat → Nat) (s : SparseSet) (v : Nat) :
    SparseSet × Bool :=
  if s.has ix v then
    if s.sparse.getD (ix v) 0 ≠ s.dense.length - 1 then
      ({ dense := ((s.dense.set (s.sparse.getD (ix v) 0)
              (s.dense.getD (s.dense.length - 1) 0)).set (s.dense.length - 1)
              (s.dense.getD (s.sparse.getD (ix v) 0) 0)).dropLast,
         sparse := s.sparse.set (ix (s.dense.getD (s.dense.length - 1) 0))
                     (s.sparse.getD (ix v) 0) }, true)
    else
      ({ dense := s.dense.dropLast, sparse := s.sparse }, true)
  else (s, false)

/-- `clear()`: clears `dense_` only; `sparse_` keeps stale junk. -/
def clear (s : SparseSet) : SparseSet :=
  { s with dense := [] }

/-- `find_dense_index(v)`: nothrow lookup; `none` models the `(size_t(-1),
false)` result. -/
def find_dense_index (ix : Nat → Nat) (s : SparseSet) (v : Nat) : Option Nat :=
  if s.has ix v then some (s.sparse.getD (ix v) 0) else none

/-- `get_dense_index(v)`: as `find_dense_index`, but the absent case throws
`std::logic_error` (modelled by `none`). -/
def get_dense_index (ix : Nat → Nat) (s : SparseSet) (v : Nat) : Option Nat :=
  find_dense_index ix s v

def size (s : SparseSet) : Nat := s.dense.length

/-- Structural invariant of a sparse set: the sparse array never exceeds its
max size, and every dense slot has a correct back-pointer inside `sparse_`. -/
def WF (ix : Nat → Nat) (M : Nat) (s : SparseSet) : Prop :=
  s.sparse.length ≤ M ∧
  ∀ i, i < s.dense.length →
    ix (s.dense.getD i 0) < s.sparse.length ∧
    s.sparse.getD (ix (s.dense.getD i 0)) 0 = i

instance (ix : Nat → Nat) (M : Nat) (s : SparseSet) : Decidable (WF ix M s) := by
  unfold WF; infer_instance

end SparseSet

/-- A sparse-set operation: `insert`, `unordered_erase` or `clear`. -/
inductive SSOp
  | ins (v : Nat)
  | ers (v : Nat)
  | clr
  deriving Repr, DecidableEq

/-- Run one operation; a throwing `insert` (`none`) leaves the set
unchanged, mirroring the strong exception guarantee of the C++ code. -/
def runOp (ix : Nat → Nat) (M : Nat) (s : SparseSet) : SSOp → SparseSet
  | .ins v =>
    match SparseSet.insert ix M s v with
    | some (s2, _) => s2
    | none => s
  | .ers v => (SparseSet.unordered_erase ix s v).1
  | .clr => s.clear

/-- Run a sequence of operations from the default-constructed set. -/
def runOps (ix : Nat → Nat) (M : Nat) (ops : List SSOp) : SparseSet :=
  ops.foldl (runOp ix M) SparseSet.mk0

/-! ### `detail::sparse_map`

A sparse set of keys plus a value vector kept in lock-step.  `Option.none`
again models a thrown exception (state rolled back / unchanged). -/

structure SparseMap (α : Type) where
  keys : SparseSet
  values : List α

namespace SparseMap

def mk0 {α : Type} : SparseMap α := ⟨SparseSet.mk0, []⟩

def has {α : Type} (ix : Nat → Nat) (m : SparseMap α) (k : Nat) : Bool :=
  m.keys.has ix k

/-- `find(k)`: `find_dense_index` on the key set, then the parallel value. -/
def find {α : Type} (ix : Nat → Nat) (m : SparseMap α) (k : Nat) : Option α :=
  match SparseSet.find_dense_index ix m.keys k with
  | some i => m.values[i]?
  | none => none

/-- `insert(k, v)`: push the value, insert the key, roll the value back if the
key insertion throws. -/
def insert {α : Type} (ix : Nat → Nat) (M : Nat) (m : SparseMap α)
    (k : Nat) (v : α) : Option (SparseMap α × Bool) :=
  if (m.find ix k).isSome then some (m, false)
  else
    match SparseSet.insert ix M m.keys k with
    | some (ks, _) => some (⟨ks, m.values ++ [v]⟩, true)
    | none => none

/-- `insert_or_assign(k, v)`: overwrite in place when the key is present. -/
def insert_or_assign {α : Type} (ix : Nat → Nat) (M : Nat) (m : SparseMap α)
    (k : Nat) (v : α) : Option (SparseMap α × Bool) :=
  match SparseSet.find_dense_index ix m.keys k with
  | some i => some (⟨m.keys, m.values.set i v⟩, false)
  | none =>
    match SparseSet.insert ix M m.keys k with
    | some (ks, _) => some (⟨ks, m.values ++ [v]⟩, true)
    | none => none

/-- `unordered_erase(k)`: swap the value with the back, pop, erase the key. -/
def unordered_erase {α : Type} [Inhabited α] (ix : Nat → Nat)
    (m : SparseMap α) (k : Nat) : SparseMap α × Bool :=
  match SparseSet.find_dense_index ix m.keys k with
  | none => (m, false)
  | some i =>
    if i ≠ m.values.length - 1 then
      (⟨(m.keys.unordered_erase ix k).1,
        ((m.values.set i (m.values.getD (m.values.length - 1) default)).set
          (m.values.length - 1) (m.values.getD i default)).dropLast⟩, true)
    else
      (⟨(m.keys.unordered_erase ix k).1, m.values.dropLast⟩, true)

def clear {α : Type} (m : SparseMap α) : SparseMap α :=
  ⟨m.keys.clear, []⟩

def size {α : Type} (m : SparseMap α) : Nat := m.values.length

/-- Invariant: well-formed key set and lock-step value vector. -/
def WF {α : Type} (ix : Nat → Nat) (M : Nat) (m : SparseMap α) : Prop :=
  SparseSet.WF ix M m.keys ∧ m.values.length = m.keys.dense.length

end SparseMap

/-! ### The registry: entity allocation, storages, iteration

`Reg α` keeps the fields of `ecs_hpp::registry` that the claims are about:
`last_entity_id_`, the `free_entity_ids_` vector (modelled together with its
capacity, which the source manages via `reserve`), the live-id sparse set
`entity_ids_` and the storage table `storages_` (an association list in
creation order, values of every component type collapsed to `α`). -/

structure Reg (α : Type) where
  last_entity_id : Nat
  free_entity_ids : List Nat
  free_capacity : Nat
  entity_ids : SparseSet
  storages : List (Nat × SparseMap α)

inductive CreateErr
  | indexOverflow
  | lengthErr
  deriving Repr, DecidableEq

namespace Reg

def mk0 {α : Type} : Reg α := ⟨0, [], 0, SparseSet.mk0, []⟩

/-- `valid_entity(ent)`: membership in `entity_ids_`, keyed by the index
field through `entity_id_indexer`. -/
def valid_entity {α : Type} (r : Reg α) (e : Nat) : Bool :=
  r.entity_ids.has entity_id_indexer e

/-- `find_storage_<T>()`: look the family id up in the storage table. -/
def find_storage {α : Type} (r : Reg α) (f : Nat) : Option (SparseMap α) :=
  r.storages.lookup f

/-- `create_entity()`: pop and upgrade a free id, or mint `last_entity_id_+1`
after the overflow check and the free-list capacity reservation. -/
def create_entity {α : Type} (M : Nat) (r : Reg α) :
    Except CreateErr (Reg α × Nat) :=
  match r.free_entity_ids.getLast? with
  | some free_id =>
    match SparseSet.insert entity_id_indexer M r.entity_ids
        (upgrade_entity_id free_id) with
    | some (s2, _) =>
      .ok ({ r with
              entity_ids := s2,
              free_entity_ids := r.free_entity_ids.dropLast },
           upgrade_entity_id free_id)
    | none => .error .lengthErr
  | none =>
    if entity_id_index_mask ≤ r.last_entity_id then .error .indexOverflow
    else
      match (if r.free_capacity ≤ r.entity_ids.dense.length then
          next_capacity_size r.free_capacity (r.entity_ids.dense.length + 1) M
        else some r.free_capacity) with
      | none => .error .lengthErr
      | some cap =>
        match SparseSet.insert entity_id_indexer M r.entity_ids
            (r.last_entity_id + 1) with
        | some (s2, _) =>
          .ok ({ r with
                  entity_ids := s2,
                  free_capacity := cap,
                  last_entity_id := r.last_entity_id + 1 },
               r.last_entity_id + 1)
        | none => .error .lengthErr

/-- `remove_all_components(ent)`: `remove(ent)` on every storage. -/
def remove_all_components {α : Type} [Inhabited α] (r : Reg α) (e : Nat) :
    Reg α :=
  { r with
      storages := r.storages.map
        (fun p => (p.1, (SparseMap.unordered_erase entity_id_indexer p.2 e).1)) }

/-- `destroy_entity(ent)`: remove all components, erase from `entity_ids_`,
and only on a successful erase push the id onto the free list. -/
def destroy_entity {α : Type} [Inhabited α] (r : Reg α) (e : Nat) : Reg α :=
  if (SparseSet.unordered_erase entity_id_indexer r.entity_ids e).2 then
    { remove_all_components r e with
        entity_ids :=
          (SparseSet.unordered_erase entity_id_indexer r.entity_ids e).1,
        free_entity_ids := r.free_entity_ids ++ [e] }
  else
    { remove_all_components r e with
        entity_ids :=
          (SparseSet.unordered_erase entity_id_indexer r.entity_ids e).1 }

/-- Update (or lazily create, appending in creation order) storage `f`. -/
def set_storage {α : Type} (r : Reg α) (f : Nat) (st : SparseMap α) : Reg α :=
  { r with
      storages :=
        if (r.storages.lookup f).isSome then
          r.storages.map (fun p => if p.1 = f then (f, st) else p)
        else r.storages ++ [(f, st)] }

/-- `assign_component<T>(ent, v)`: overwrite if present, else insert, on the
lazily created storage of family `f`. -/
def assign_component {α : Type} (M : Nat) (r : Reg α) (f e : Nat) (v : α) :
    Option (Reg α) :=
  match SparseMap.insert_or_assign entity_id_indexer M
      ((r.find_storage f).getD SparseMap.mk0) e v with
  | some (st, _) => some (r.set_storage f st)
  | none => none

/-- `exists_component<T>(ent)`: absent storage means `false`. -/
def exists_component {α : Type} (r : Reg α) (f e : Nat) : Bool :=
  match r.find_storage f with
  | some st => st.keys.has entity_id_indexer e
  | none => false

/-- `find_component<T>(ent)`: absent storage means `nullptr` (`none`). -/
def find_component {α : Type} (r : Reg α) (f e : Nat) : Option α :=
  match r.find_storage f with
  | some st => st.find entity_id_indexer e
  | none => none

/-- `remove_component<T>(ent)`. -/
def remove_component {α : Type} [Inhabited α] (r : Reg α) (f e : Nat) :
    Reg α × Bool :=
  match r.find_storage f with
  | some st =>
    (r.set_storage f (SparseMap.unordered_erase entity_id_indexer st e).1,
     (SparseMap.unordered_erase entity_id_indexer st e).2)
  | none => (r, false)

/-- `for_each_entity(f, opts...)`: the visit trace over the live dense array,
filtered by the option conjunction. -/
def for_each_entity {α : Type} (r : Reg α) (opt : Nat → Bool) : List Nat :=
  r.entity_ids.dense.foldl (fun acc e => if opt e then acc ++ [e] else acc) []

/-- `std::make_tuple(find_storage_<Ts>()...)` plus the `tuple_contains`
null check: resolve every tail storage, bail out on any miss. -/
def resolve_storages {α : Type} (r : Reg α) : List Nat →
    Option (List (SparseMap α))
  | [] => some []
  | f :: rest =>
    match r.find_storage f with
    | some st => (resolve_storages r rest).map (st :: ·)
    | none => none

/-- The probe chain of `for_joined_components_impl_`: look the entity up in
each tail storage, abandoning the entity on the first miss. -/
def probe_tail {α : Type} (ix : Nat → Nat) (ss : List (SparseMap α))
    (e : Nat) : Option (List α) :=
  match ss with
  | [] => some []
  | st :: rest =>
    match st.find ix e with
    | some v => (probe_tail ix rest e).map (v :: ·)
    | none => none

/-- `for_joined_components<T1, Ts...>(f, opts...)` with a non-empty type
list: the invocation trace.  The driver storage `t1` is iterated in dense
order (key/value pairs in lock-step), options filter each candidate, then
the tail storages are probed. -/
def for_joined_components {α : Type} (r : Reg α) (t1 : Nat)
    (rest : List Nat) (opt : Nat → Bool) : List (Nat × α × List α) :=
  match resolve_storages r rest with
  | none => []
  | some ss =>
    match r.find_storage t1 with
    | none => []
    | some drv =>
      (List.zip drv.keys.dense drv.values).foldl
        (fun acc p =>
          if opt p.1 then
            match probe_tail entity_id_indexer ss p.1 with
            | some vs => acc ++ [(p.1, p.2, vs)]
            | none => acc
          else acc) []

/-- `for_joined_components<>(f, opts...)` with an empty type list delegates
to `for_each_entity`. -/
def for_joined_components_nil {α : Type} (r : Reg α) (opt : Nat → Bool) :
    List Nat :=
  for_each_entity r opt

/-- The registry invariant: a well-formed live-id set whose ids carry index
fields in `[1, last_entity_id]`, index-disjointness of live and free ids,
`last_entity_id` inside the index space, the free-list capacity budget, and
well-formed storages holding only live entities. -/
def RWF {α : Type} (M : Nat) (r : Reg α) : Prop :=
  SparseSet.WF entity_id_indexer M r.entity_ids ∧
  (∀ id ∈ r.entity_ids.dense,
      1 ≤ entity_id_index id ∧ entity_id_index id ≤ r.last_entity_id ∧
      id < 2 ^ 32) ∧
  (∀ id ∈ r.free_entity_ids,
      1 ≤ entity_id_index id ∧ entity_id_index id ≤ r.last_entity_id ∧
      id < 2 ^ 32) ∧
  ((r.entity_ids.dense ++ r.free_entity_ids).map entity_id_indexer).Nodup ∧
  r.last_entity_id ≤ entity_id_index_mask ∧
  r.free_entity_ids.length + r.entity_ids.dense.length ≤ r.free_capacity ∧
  r.free_capacity ≤ M ∧
  (∀ p ∈ r.storages, SparseMap.WF entity_id_indexer M p.2 ∧
      ∀ id ∈ p.2.keys.dense, id ∈ r.entity_ids.dense)

/-- Iterated `create_entity`; `none` as soon as one call throws. -/
def createN {α : Type} (M : Nat) : Nat → Reg α → Option (Reg α)
  | 0, r => some r
  | n + 1, r =>
    match create_entity M r with
    | .ok (r2, _) => createN M n r2
    | .error _ => none

/-- Registry states reachable from a fresh registry by `create_entity` and
`destroy_entity` calls. -/
inductive Reach {α : Type} [Inhabited α] (M : Nat) : Reg α → Prop
  | init : Reach M mk0
  | create {r r2 : Reg α} {id : Nat} : Reach M r →
      create_entity M r = .ok (r2, id) → Reach M r2
  | destroy {r : Reg α} (e : Nat) : Reach M r → Reach M (destroy_entity r e)

end Reg

instance {α : Type} (ix : Nat → Nat) (M : Nat) (m : SparseMap α) :
    Decidable (SparseMap.WF ix M m) := by
  unfold SparseMap.WF
  infer_instance

instance {α : Type} (M : Nat) (r : Reg α) : Decidable (Reg.RWF M r) := by
  unfold Reg.RWF
  infer_instance

namespace Reg

/-- The per-entry emission step of `for_joined_components`: option filter
then the tail probe, packaging the joined tuple. -/
def joined_emit {α : Type} (ss : List (SparseMap α)) (opt : Nat → Bool)
    (p : Nat × α) : Option (Nat × α × List α) :=
  if opt p.1 then
    (probe_tail entity_id_indexer ss p.1).map (fun vs => (p.1, p.2, vs))
  else none

/-- One prototype applier (`typed_applier_with_args::apply_to_entity`):
assign the recorded component unless `override` is false and the entity
already has one of this family. -/
def applier_apply {α : Type} (M : Nat) (f : Nat) (v : α) (ov : Bool)
    (e : Nat) (r : Reg α) : Option (Reg α) :=
  if ov || !(exists_component r f e) then assign_component M r f e v
  else some r

/-- `prototype::apply_to_entity`: run every recorded applier over the
entity, in applier order. -/
def apply_to_entity {α : Type} (M : Nat) (p : List (Nat × α)) (ov : Bool)
    (e : Nat) (r : Reg α) : Option (Reg α) :=
  match p with
  | [] => some r
  | (f, v) :: rest =>
    match applier_apply M f v ov e r with
    | some r2 => apply_to_entity M rest ov e r2
    | none => none

end Reg

namespace Feature

/-- The phase wrappers of `feature::process_event`: `before<E>`, the plain
event `E`, and `after<E>`, each a distinct static event type. -/
inductive EvType
  | before (e : Nat)
  | plain (e : Nat)
  | after (e : Nat)
deriving DecidableEq, Repr

/-- A system held by a feature: its insertion id together with the set of
event-type instantiations for which `dynamic_cast<system<E>*>` on it
succeeds. -/
structure MSys where
  sid : Nat
  handles : EvType → Bool

/-- The `fire_event` lambda of `feature::process_event`: walk the systems
in insertion order and invoke each handler implementing the event type;
the value is the invocation trace. -/
def fire_event (systems : List MSys) (t : EvType) : List (Nat × EvType) :=
  systems.foldl
    (fun acc s => if s.handles t then acc ++ [(s.sid, t)] else acc) []

/-- `feature::process_event`: dispatch `before<E>{event}`, then `event`,
then `after<E>{event}`. -/
def process_event (systems : List MSys) (e : Nat) : List (Nat × EvType) :=
  fire_event systems (EvType.before e) ++ fire_event systems (EvType.plain e)
    ++ fire_event systems (EvType.after e)

end Feature

/-- The concrete registry of the C1 witness: live entities 1 and 2, a
driver family 1 holding both and a tail family 2 holding only entity 2. -/
def rC1 : Reg Nat :=
  ⟨2, [], 2, ⟨[1, 2], [0, 0, 1]⟩,
   [(1, ⟨⟨[1, 2], [0, 0, 1]⟩, [10, 20]⟩), (2, ⟨⟨[2], [0, 0, 0]⟩, [30]⟩)]⟩

theorem entity_id_index_eq_mod (id : Nat) :
    entity_id_index id = id % 2 ^ 22 := by
  have h : entity_id_index_mask = 2 ^ 22 - 1 := by
    rw [entity_id_index_mask, entity_id_index_bits, Nat.shiftLeft_eq, Nat.one_mul]
  rw [entity_id_index, h, Nat.and_pow_two_sub_one_eq_mod]

theorem entity_id_version_eq_mod (id : Nat) :
    entity_id_version id = id / 2 ^ 22 % 2 ^ 10 := by
  have h : entity_id_version_mask = 2 ^ 10 - 1 := by
    rw [entity_id_version_mask, entity_id_version_bits, Nat.shiftLeft_eq, Nat.one_mul]
  rw [entity_id_version, h, Nat.and_pow_two_sub_one_eq_mod,
    entity_id_index_bits, Nat.shiftRight_eq_div_pow]

theorem entity_id_join_eq_add {index : Nat} (version : Nat)
    (h : index < 2 ^ 22) :
    entity_id_join index version = index + 2 ^ 22 * (version % 2 ^ 10) := by
  have hshift : (version <<< entity_id_index_bits) % 2 ^ 32
      = 2 ^ 22 * (version % 2 ^ 10) := by
    have h32 : (2 : Nat) ^ 32 = 2 ^ 22 * 2 ^ 10 := by norm_num
    rw [entity_id_index_bits, Nat.shiftLeft_eq, Nat.mul_comm version, h32,
      Nat.mul_mod_mul_left]
  have hor : index ||| 2 ^ 22 * (version % 2 ^ 10)
      = 2 ^ 22 * (version % 2 ^ 10) + index := by
    rw [Nat.lor_comm, ← Nat.mul_add_lt_is_or h]
  have hlt : 2 ^ 22 * (version % 2 ^ 10) + index < 2 ^ 32 := by
    have := Nat.mod_lt version (y := 2 ^ 10) (by norm_num)
    have : 2 ^ 22 * (version % 2 ^ 10) ≤ 2 ^ 22 * (2 ^ 10 - 1) := by
      exact Nat.mul_le_mul_left _ (by omega)
    omega
  rw [entity_id_join, hshift, hor, Nat.mod_eq_of_lt hlt]
  omega

theorem entity_id_index_join {i : Nat} (v : Nat) (hi : i < 2 ^ 22) :
    entity_id_index (entity_id_join i v) = i := by
  rw [entity_id_index_eq_mod, entity_id_join_eq_add v hi,
    Nat.add_mul_mod_self_left, Nat.mod_eq_of_lt hi]

theorem entity_id_version_join {i v : Nat} (hi : i < 2 ^ 22) (hv : v < 2 ^ 10) :
    entity_id_version (entity_id_join i v) = v := by
  rw [entity_id_version_eq_mod, entity_id_join_eq_add v hi,
    Nat.mod_eq_of_lt hv, Nat.add_comm,
    Nat.mul_add_div (by norm_num : (0:Nat) < 2 ^ 22), Nat.div_eq_of_lt hi,
    Nat.add_zero, Nat.mod_eq_of_lt hv]

/-- C2: for every 32-bit entity id, `upgrade_entity_id id` equals
`entity_id_join (index id) ((version id + 1) &&& version_mask)`; equivalently,
`upgrade (join i v) = join i ((v + 1) % 2 ^ 10)` for every index `i < 2 ^ 22`
and version `v < 2 ^ 10`, including `v = 2 ^ 10 - 1`, where the upgraded
version wraps to 0 (in the source the wrap happens through the `uint32`
truncation of `version << 22` rather than an explicit mask). -/
theorem upgrade_entity_id_spec (id : Nat) (hid : id < 2 ^ 32) :
    upgrade_entity_id id
      = entity_id_join (entity_id_index id)
          ((entity_id_version id + 1) &&& entity_id_version_mask)
    ∧ (∀ i, i < 2 ^ 22 → ∀ v, v < 2 ^ 10 →
        upgrade_entity_id (entity_id_join i v)
          = entity_id_join i ((v + 1) % 2 ^ 10)) := by
  have hmask : entity_id_version_mask = 2 ^ 10 - 1 := by
    rw [entity_id_version_mask, entity_id_version_bits, Nat.shiftLeft_eq,
      Nat.one_mul]
  constructor
  · have hidx : entity_id_index id < 2 ^ 22 := by
      rw [entity_id_index_eq_mod]; exact Nat.mod_lt _ (by norm_num)
    have hver : entity_id_version id < 2 ^ 10 := by
      rw [entity_id_version_eq_mod]; exact Nat.mod_lt _ (by norm_num)
    have h1 : (entity_id_version id + 1) % 2 ^ 32 = entity_id_version id + 1 :=
      Nat.mod_eq_of_lt (by omega)
    rw [upgrade_entity_id, hmask, Nat.and_pow_two_sub_one_eq_mod,
      entity_id_join_eq_add _ hidx, entity_id_join_eq_add _ hidx, h1,
      Nat.mod_mod_of_dvd _ dvd_rfl]
  · intro i hi v hv
    have hij : entity_id_index (entity_id_join i v) = i :=
      entity_id_index_join v hi
    have hvj : entity_id_version (entity_id_join i v) = v :=
      entity_id_version_join hi hv
    have h2 : (v + 1) % 2 ^ 32 = v + 1 := Nat.mod_eq_of_lt (by omega)
    rw [upgrade_entity_id, hij, hvj, entity_id_join_eq_add _ hi,
      entity_id_join_eq_add _ hi, h2, Nat.mod_mod_of_dvd _ dvd_rfl]

/-- Witness for C2: instantiated at id = 83886090 = join 10 20, and at the
wrap point i = 1, v = 1023. -/
theorem upgrade_entity_id_spec_witness :
    upgrade_entity_id 83886090
      = entity_id_join (entity_id_index 83886090)
          ((entity_id_version 83886090 + 1) &&& entity_id_version_mask)
    ∧ upgrade_entity_id (entity_id_join 1 1023)
      = entity_id_join 1 ((1023 + 1) % 2 ^ 10) :=
  ⟨(upgrade_entity_id_spec 83886090 (by norm_num)).1,
   (upgrade_entity_id_spec 83886090 (by norm_num)).2 1 (by norm_num)
     1023 (by norm_num)⟩

namespace SparseSet

theorem WF_mk0 (ix : Nat → Nat) (M : Nat) : WF ix M mk0 := by
  refine ⟨Nat.zero_le _, ?_⟩
  intro i hi
  simp [mk0] at hi

theorem getD_eq_getElem {l : List Nat} {i : Nat} (h : i < l.length) :
    l.getD i 0 = l[i] := by
  simp [List.getD_eq_getElem?_getD, List.getElem?_eq_getElem h]

theorem getD_set_self {l : List Nat} {i a : Nat} (h : i < l.length) :
    (l.set i a).getD i 0 = a := by
  simp [List.getD_eq_getElem?_getD, List.getElem?_set_self h]

theorem getD_set_ne {l : List Nat} {i j a : Nat} (h : i ≠ j) :
    (l.set i a).getD j 0 = l.getD j 0 := by
  simp [List.getD_eq_getElem?_getD, List.getElem?_set_ne h]

theorem getD_append_left {l1 l2 : List Nat} {i : Nat} (h : i < l1.length) :
    (l1 ++ l2).getD i 0 = l1.getD i 0 := by
  simp [List.getD_eq_getElem?_getD, List.getElem?_append_left h]

theorem getD_concat_length {l : List Nat} {a : Nat} :
    (l ++ [a]).getD l.length 0 = a := by
  simp [List.getD_eq_getElem?_getD, List.getElem?_concat_length]

theorem getD_dropLast {l : List Nat} {i : Nat} (h : i < l.length - 1) :
    l.dropLast.getD i 0 = l.getD i 0 := by
  have h1 : i < l.dropLast.length := by simp; omega
  have h2 : i < l.length := by omega
  rw [getD_eq_getElem h1, getD_eq_getElem h2, List.getElem_dropLast]

theorem getD_mem {l : List Nat} {i : Nat} (h : i < l.length) :
    l.getD i 0 ∈ l := by
  rw [getD_eq_getElem h]; exact List.getElem_mem h

/-- Unfold `has` into its three conjuncts. -/
theorem has_spec {ix : Nat → Nat} {s : SparseSet} {v : Nat}
    (h : s.has ix v = true) :
    ix v < s.sparse.length ∧ s.sparse.getD (ix v) 0 < s.dense.length ∧
    s.dense.getD (s.sparse.getD (ix v) 0) 0 = v := by
  simpa [has, Bool.and_eq_true, decide_eq_true_eq, and_assoc] using h

theorem has_of (ix : Nat → Nat) {s : SparseSet} {v : Nat}
    (h1 : ix v < s.sparse.length) (h2 : s.sparse.getD (ix v) 0 < s.dense.length)
    (h3 : s.dense.getD (s.sparse.getD (ix v) 0) 0 = v) :
    s.has ix v = true := by
  unfold has
  rw [decide_eq_true h1, decide_eq_true h2, decide_eq_true h3]
  rfl

/-- Under `WF`, membership in the dense array is exactly `has`. -/
theorem has_iff_mem {ix : Nat → Nat} {M : Nat} {s : SparseSet}
    (hwf : WF ix M s) (v : Nat) :
    s.has ix v = true ↔ v ∈ s.dense := by
  constructor
  · intro h
    obtain ⟨_, h2, h3⟩ := has_spec h
    rw [← h3]
    exact getD_mem h2
  · intro h
    obtain ⟨i, hi, hiv⟩ := List.mem_iff_getElem.mp h
    have hD : s.dense.getD i 0 = v := by rw [getD_eq_getElem hi, hiv]
    obtain ⟨hb1, hb2⟩ := hwf.2 i hi
    rw [hD] at hb1 hb2
    exact has_of ix hb1 (by rw [hb2]; exact hi) (by rw [hb2, hD])

theorem nodup_dense {ix : Nat → Nat} {M : Nat} {s : SparseSet}
    (hwf : WF ix M s) : s.dense.Nodup := by
  rw [List.nodup_iff_injective_get]
  intro ⟨i, hi⟩ ⟨j, hj⟩ hij
  simp only [List.get_eq_getElem] at hij
  have hDi : s.dense.getD i 0 = s.dense[i] := getD_eq_getElem hi
  have hDj : s.dense.getD j 0 = s.dense[j] := getD_eq_getElem hj
  have h1 := (hwf.2 i hi).2
  have h2 := (hwf.2 j hj).2
  rw [hDi, hij, ← hDj] at h1
  rw [h1] at h2
  simpa using h2

theorem not_mem_of_has_false {ix : Nat → Nat} {M : Nat} {s : SparseSet}
    (hwf : WF ix M s) {v : Nat} (h : s.has ix v = false) : v ∉ s.dense := by
  intro hv
  rw [← has_iff_mem hwf v] at hv
  rw [hv] at h
  simp at h

theorem WF_clear {ix : Nat → Nat} {M : Nat} {s : SparseSet}
    (hwf : WF ix M s) : WF ix M s.clear := by
  refine ⟨hwf.1, ?_⟩
  intro i hi
  simp [clear] at hi

/-- Positional injectivity of the dense array, straight from the
back-pointer invariant. -/
theorem WF_getD_inj {ix : Nat → Nat} {M : Nat} {s : SparseSet}
    (hwf : WF ix M s) {i j : Nat}
    (hi : i < s.dense.length) (hj : j < s.dense.length)
    (he : s.dense.getD i 0 = s.dense.getD j 0) : i = j := by
  have b1 := (hwf.2 i hi).2
  have b2 := (hwf.2 j hj).2
  rw [he] at b1
  rw [b1] at b2
  exact b2

theorem mem_iff_exists_getD {l : List Nat} {w : Nat} :
    w ∈ l ↔ ∃ i, i < l.length ∧ l.getD i 0 = w := by
  rw [List.mem_iff_getElem]
  constructor
  · rintro ⟨i, hi, rfl⟩
    exact ⟨i, hi, getD_eq_getElem hi⟩
  · rintro ⟨i, hi, h⟩
    exact ⟨i, hi, by rw [← getD_eq_getElem hi, h]⟩

theorem next_capacity_size_bounds {cur min M n : Nat} (hcur : cur ≤ M)
    (h : next_capacity_size cur min M = some n) :
    min ≤ n ∧ cur ≤ n ∧ n ≤ M := by
  unfold next_capacity_size at h
  split at h
  · simp at h
  · rename_i hmin
    split at h
    · rename_i hhalf
      obtain rfl : M = n := by simpa using h
      omega
    · rename_i hhalf
      obtain rfl : Nat.max (cur * 2) min = n := by simpa using h
      refine ⟨Nat.le_max_right _ _,
        Nat.le_trans (by omega) (Nat.le_max_left _ _),
        Nat.max_le.mpr ⟨by omega, by omega⟩⟩

theorem next_capacity_size_some {cur min M : Nat} (h : min ≤ M) :
    ∃ n, next_capacity_size cur min M = some n := by
  unfold next_capacity_size
  rw [if_neg (by omega)]
  split <;> exact ⟨_, rfl⟩

theorem length_resizeTo {l : List Nat} {n : Nat} (h : l.length ≤ n) :
    (resizeTo l n).length = n := by
  simp [resizeTo]
  omega

theorem getD_resizeTo {l : List Nat} {n i : Nat} (h : l.length ≤ n)
    (hi : i < l.length) : (resizeTo l n).getD i 0 = l.getD i 0 := by
  rw [resizeTo, List.take_of_length_le h, getD_append_left hi]

theorem insert_of_has {ix : Nat → Nat} {M : Nat} {s : SparseSet} {v : Nat}
    (h : s.has ix v = true) : insert ix M s v = some (s, false) := by
  simp [insert, h]

/-- Inserting a value no stored value collides with (under the indexer)
preserves the invariant and appends the value to the dense array. -/
theorem insert_some_spec {ix : Nat → Nat} {M : Nat} {s : SparseSet} {v : Nat}
    {s2 : SparseSet} {b : Bool} (hwf : WF ix M s)
    (hfr : ∀ w ∈ s.dense, ix w ≠ ix v)
    (hh : s.has ix v = false)
    (h : insert ix M s v = some (s2, b)) :
    WF ix M s2 ∧ s2.dense = s.dense ++ [v] ∧ b = true := by
  rw [insert, if_neg (by simp [hh])] at h
  have hsp : ∃ sp : List Nat, s.sparse.length ≤ sp.length ∧ sp.length ≤ M ∧
      ix v < sp.length ∧
      (∀ j, j < s.sparse.length → sp.getD j 0 = s.sparse.getD j 0) ∧
      s2 = ⟨s.dense ++ [v], sp.set (ix v) s.dense.length⟩ ∧ b = true := by
    split at h
    · rename_i hle
      cases hnc : next_capacity_size s.sparse.length (ix v + 1) M with
      | none => rw [hnc] at h; simp at h
      | some n =>
        rw [hnc] at h
        simp only [Option.map_some', Option.some_inj, Prod.mk.injEq] at h
        obtain ⟨hmin, hcur, hM⟩ := next_capacity_size_bounds hwf.1 hnc
        obtain ⟨rfl, rfl⟩ := h
        refine ⟨resizeTo s.sparse n, ?_, ?_, ?_, ?_, rfl, rfl⟩
        · rw [length_resizeTo hcur]; exact hcur
        · rw [length_resizeTo hcur]; exact hM
        · rw [length_resizeTo hcur]; omega
        · intro j hj; exact getD_resizeTo hcur hj
    · rename_i hgt
      simp only [Option.map_some', Option.some_inj, Prod.mk.injEq] at h
      obtain ⟨rfl, rfl⟩ := h
      exact ⟨s.sparse, Nat.le_refl _, hwf.1, by omega, fun j hj => rfl, rfl, rfl⟩
  obtain ⟨sp, hle, hM, hvi, hpres, rfl, rfl⟩ := hsp
  refine ⟨⟨?_, ?_⟩, rfl, rfl⟩
  · simpa using hM
  · intro i hi
    simp only [List.length_append, List.length_cons, List.length_nil] at hi
    by_cases hie : i = s.dense.length
    · subst hie
      rw [getD_concat_length]
      constructor
      · simpa using hvi
      · rw [getD_set_self hvi]
    · have hilt : i < s.dense.length := by omega
      rw [getD_append_left hilt]
      obtain ⟨hb1, hb2⟩ := hwf.2 i hilt
      have hwmem : s.dense.getD i 0 ∈ s.dense := getD_mem hilt
      have hne : ix (s.dense.getD i 0) ≠ ix v := hfr _ hwmem
      constructor
      · simp only [List.length_set]; omega
      · rw [getD_set_ne (fun he => hne he.symm), hpres _ hb1, hb2]

theorem erase_of_has_false {ix : Nat → Nat} {s : SparseSet} {v : Nat}
    (hh : s.has ix v = false) : unordered_erase ix s v = (s, false) := by
  simp [unordered_erase, hh]

/-- `unordered_erase` on a present value keeps the invariant, shrinks the
dense array by one and removes exactly that value. -/
theorem erase_spec {ix : Nat → Nat} {M : Nat} {s : SparseSet} {v : Nat}
    (hwf : WF ix M s) (hh : s.has ix v = true) :
    WF ix M (unordered_erase ix s v).1 ∧
    (unordered_erase ix s v).2 = true ∧
    (unordered_erase ix s v).1.dense.length = s.dense.length - 1 ∧
    (unordered_erase ix s v).1.sparse.length = s.sparse.length ∧
    ∀ w, w ∈ (unordered_erase ix s v).1.dense ↔ w ∈ s.dense ∧ w ≠ v := by
  obtain ⟨h1, h2, h3⟩ := has_spec hh
  rw [unordered_erase, if_pos hh]
  by_cases hdl : s.sparse.getD (ix v) 0 ≠ s.dense.length - 1
  · rw [if_pos hdl]
    have hlen1 : s.dense.length - 1 < s.dense.length := by omega
    have hback := hwf.2 (s.dense.length - 1) hlen1
    have hdib : s.sparse.getD (ix v) 0 < s.dense.length - 1 := by omega
    have hsetlen : ((s.dense.set (s.sparse.getD (ix v) 0)
        (s.dense.getD (s.dense.length - 1) 0)).set (s.dense.length - 1)
        (s.dense.getD (s.sparse.getD (ix v) 0) 0)).length = s.dense.length := by
      simp
    have hgd2 : (((s.dense.set (s.sparse.getD (ix v) 0)
        (s.dense.getD (s.dense.length - 1) 0)).set (s.dense.length - 1)
        (s.dense.getD (s.sparse.getD (ix v) 0) 0)).dropLast).getD
          (s.sparse.getD (ix v) 0) 0
        = s.dense.getD (s.dense.length - 1) 0 := by
      rw [getD_dropLast (by rw [hsetlen]; omega),
        getD_set_ne (by omega : s.dense.length - 1 ≠ s.sparse.getD (ix v) 0),
        getD_set_self (by omega : s.sparse.getD (ix v) 0 < s.dense.length)]
    have hgd1 : ∀ i, i < s.dense.length - 1 → i ≠ s.sparse.getD (ix v) 0 →
        (((s.dense.set (s.sparse.getD (ix v) 0)
          (s.dense.getD (s.dense.length - 1) 0)).set (s.dense.length - 1)
          (s.dense.getD (s.sparse.getD (ix v) 0) 0)).dropLast).getD i 0
          = s.dense.getD i 0 := by
      intro i hi hne
      rw [getD_dropLast (by rw [hsetlen]; omega),
        getD_set_ne (by omega : s.dense.length - 1 ≠ i),
        getD_set_ne (fun he => hne he.symm)]
    refine ⟨⟨by simpa using hwf.1, ?_⟩, rfl, by simp, by simp, ?_⟩
    · intro i hi
      simp only [List.length_dropLast, hsetlen] at hi
      by_cases hie : i = s.sparse.getD (ix v) 0
      · subst hie
        rw [hgd2]
        constructor
        · simpa using hback.1
        · rw [getD_set_self hback.1]
      · rw [hgd1 i hi hie]
        have hilt : i < s.dense.length := by omega
        obtain ⟨hb1, hb2⟩ := hwf.2 i hilt
        have hne2 : ix (s.dense.getD i 0)
            ≠ ix (s.dense.getD (s.dense.length - 1) 0) := by
          intro he
          rw [he, hback.2] at hb2
          omega
        constructor
        · simpa using hb1
        · rw [getD_set_ne (fun he => hne2 he.symm), hb2]
    · intro w
      simp only [List.length_dropLast, hsetlen]
      constructor
      · intro hw
        obtain ⟨i, hi, hiw⟩ := mem_iff_exists_getD.mp hw
        simp only [List.length_dropLast, hsetlen] at hi
        by_cases hie : i = s.sparse.getD (ix v) 0
        · subst hie
          rw [hgd2] at hiw
          subst hiw
          refine ⟨getD_mem hlen1, fun he => ?_⟩
          rw [← h3] at he
          exact hdl (WF_getD_inj hwf hlen1 h2 he).symm
        · rw [hgd1 i hi hie] at hiw
          subst hiw
          have hilt : i < s.dense.length := by omega
          refine ⟨getD_mem hilt, fun he => ?_⟩
          rw [← h3] at he
          exact hie (WF_getD_inj hwf hilt h2 he)
      · rintro ⟨hw, hwv⟩
        obtain ⟨j, hj, hjw⟩ := mem_iff_exists_getD.mp hw
        have hjdi : j ≠ s.sparse.getD (ix v) 0 := by
          intro he
          rw [he, h3] at hjw
          exact hwv hjw.symm
        by_cases hjl : j = s.dense.length - 1
        · subst hjl
          refine mem_iff_exists_getD.mpr ⟨s.sparse.getD (ix v) 0, ?_, ?_⟩
          · simp only [List.length_dropLast, hsetlen]; omega
          · rw [hgd2, hjw]
        · refine mem_iff_exists_getD.mpr ⟨j, ?_, ?_⟩
          · simp only [List.length_dropLast, hsetlen]; omega
          · rw [hgd1 j (by omega) hjdi, hjw]
  · rw [if_neg hdl]
    push_neg at hdl
    refine ⟨⟨hwf.1, ?_⟩, rfl, by simp, rfl, ?_⟩
    · intro i hi
      simp only [List.length_dropLast] at hi
      rw [getD_dropLast hi]
      exact hwf.2 i (by omega)
    · intro w
      constructor
      · intro hw
        obtain ⟨i, hi, hiw⟩ := mem_iff_exists_getD.mp hw
        simp only [List.length_dropLast] at hi
        rw [getD_dropLast hi] at hiw
        subst hiw
        have hilt : i < s.dense.length := by omega
        refine ⟨getD_mem hilt, fun he => ?_⟩
        rw [← h3, hdl] at he
        have := WF_getD_inj hwf hilt (by omega : s.dense.length - 1 < s.dense.length) he
        omega
      · rintro ⟨hw, hwv⟩
        obtain ⟨j, hj, hjw⟩ := mem_iff_exists_getD.mp hw
        have hjl : j ≠ s.dense.length - 1 := by
          intro he
          rw [he, ← hdl, h3] at hjw
          exact hwv hjw.symm
        refine mem_iff_exists_getD.mpr ⟨j, ?_, ?_⟩
        · simp only [List.length_dropLast]; omega
        · rw [getD_dropLast (by omega), hjw]

theorem insert_isSome {ix : Nat → Nat} {M : Nat} {s : SparseSet} {v : Nat}
    (hvi : ix v < M) :
    ∃ s2 b, insert ix M s v = some (s2, b) := by
  by_cases hh : s.has ix v = true
  · exact ⟨s, false, insert_of_has hh⟩
  · rw [insert, if_neg hh]
    split
    · obtain ⟨n, hn⟩ :=
        @next_capacity_size_some s.sparse.length (ix v + 1) M
          (by omega : ix v + 1 ≤ M)
      rw [hn]
      exact ⟨_, _, rfl⟩
    · exact ⟨_, _, rfl⟩

end SparseSet

theorem Bool.eq_false_of_ne_true {b : Bool} (h : ¬ b = true) : b = false := by
  cases b
  · rfl
  · exact absurd rfl h

theorem runOp_WF {ix : Nat → Nat} {M : Nat} {s : SparseSet}
    (hinj : Function.Injective ix) (hwf : SparseSet.WF ix M s) :
    ∀ op, SparseSet.WF ix M (runOp ix M s op) := by
  intro op
  cases op with
  | ins v =>
    simp only [runOp]
    by_cases hh : s.has ix v = true
    · rw [SparseSet.insert_of_has hh]
      exact hwf
    · have hh2 := Bool.eq_false_of_ne_true hh
      have hfr : ∀ w ∈ s.dense, ix w ≠ ix v := fun w hw he =>
        (SparseSet.not_mem_of_has_false hwf hh2) (by rw [← hinj he]; exact hw)
      cases hins : SparseSet.insert ix M s v with
      | none => exact hwf
      | some p =>
        obtain ⟨s2, b⟩ := p
        exact (SparseSet.insert_some_spec hwf hfr hh2 hins).1
  | ers v =>
    simp only [runOp]
    by_cases hh : s.has ix v = true
    · exact (SparseSet.erase_spec hwf hh).1
    · rw [SparseSet.erase_of_has_false (Bool.eq_false_of_ne_true hh)]
      exact hwf
  | clr => exact SparseSet.WF_clear hwf

theorem runOps_WF (ix : Nat → Nat) (M : Nat) (hinj : Function.Injective ix)
    (ops : List SSOp) : SparseSet.WF ix M (runOps ix M ops) := by
  suffices h : ∀ s, SparseSet.WF ix M s →
      SparseSet.WF ix M (ops.foldl (runOp ix M) s) from
    h SparseSet.mk0 (SparseSet.WF_mk0 ix M)
  induction ops with
  | nil => exact fun s h => h
  | cons op ops ih => exact fun s h => ih _ (runOp_WF hinj h op)

/-- C3: for every sequence of `insert`, `unordered_erase` and `clear`
operations on a sparse set (with an injective indexer, as in every
instantiation in the source), after each step: `has v` holds iff
`sparse[indexer v] < dense.len` and `dense[sparse[indexer v]] = v`; the dense
array contains exactly the present values, without duplicates or holes; and
`get_dense_index` returns an index `i` with `dense[i] = v` for every present
`v` and fails (throws, modelled as `none`) for absent `v`. -/
theorem sparse_set_invariant_spec (ix : Nat → Nat) (M : Nat)
    (hinj : Function.Injective ix) (ops : List SSOp) :
    (∀ v, (runOps ix M ops).has ix v = true ↔
        ((runOps ix M ops).sparse.getD (ix v) 0 < (runOps ix M ops).dense.length
         ∧ (runOps ix M ops).dense.getD
             ((runOps ix M ops).sparse.getD (ix v) 0) 0 = v))
    ∧ (∀ v, v ∈ (runOps ix M ops).dense ↔ (runOps ix M ops).has ix v = true)
    ∧ (runOps ix M ops).dense.Nodup
    ∧ (∀ v, (runOps ix M ops).has ix v = true →
        ∃ i, (runOps ix M ops).get_dense_index ix v = some i ∧
          i < (runOps ix M ops).dense.length ∧
          (runOps ix M ops).dense.getD i 0 = v)
    ∧ (∀ v, (runOps ix M ops).has ix v = false →
        (runOps ix M ops).get_dense_index ix v = none) := by
  have hwf := runOps_WF ix M hinj ops
  refine ⟨?_, ?_, SparseSet.nodup_dense hwf, ?_, ?_⟩
  · intro v
    constructor
    · intro h
      obtain ⟨_, a, b⟩ := SparseSet.has_spec h
      exact ⟨a, b⟩
    · rintro ⟨a, b⟩
      have hv : v ∈ (runOps ix M ops).dense := by
        rw [← b]
        exact SparseSet.getD_mem a
      exact (SparseSet.has_iff_mem hwf v).mpr hv
  · intro v
    exact (SparseSet.has_iff_mem hwf v).symm
  · intro v h
    obtain ⟨a, b, c⟩ := SparseSet.has_spec h
    refine ⟨_, ?_, b, c⟩
    rw [SparseSet.get_dense_index, SparseSet.find_dense_index, if_pos h]
  · intro v h
    rw [SparseSet.get_dense_index, SparseSet.find_dense_index,
      if_neg (by simp [h])]

/-- Witness for C3: the identity indexer `sparse_indexer`, max size 64 and a
concrete mixed operation sequence. -/
theorem sparse_set_invariant_spec_witness :
    (∀ v, (runOps sparse_indexer 64 [SSOp.ins 3, SSOp.ins 5, SSOp.ers 3,
        SSOp.ins 7, SSOp.clr, SSOp.ins 2]).has sparse_indexer v = true ↔
        ((runOps sparse_indexer 64 [SSOp.ins 3, SSOp.ins 5, SSOp.ers 3,
          SSOp.ins 7, SSOp.clr, SSOp.ins 2]).sparse.getD (sparse_indexer v) 0
            < (runOps sparse_indexer 64 [SSOp.ins 3, SSOp.ins 5, SSOp.ers 3,
                SSOp.ins 7, SSOp.clr, SSOp.ins 2]).dense.length
         ∧ (runOps sparse_indexer 64 [SSOp.ins 3, SSOp.ins 5, SSOp.ers 3,
             SSOp.ins 7, SSOp.clr, SSOp.ins 2]).dense.getD
             ((runOps sparse_indexer 64 [SSOp.ins 3, SSOp.ins 5, SSOp.ers 3,
               SSOp.ins 7, SSOp.clr, SSOp.ins 2]).sparse.getD
                 (sparse_indexer v) 0) 0 = v))
    ∧ (∀ v, v ∈ (runOps sparse_indexer 64 [SSOp.ins 3, SSOp.ins 5, SSOp.ers 3,
        SSOp.ins 7, SSOp.clr, SSOp.ins 2]).dense ↔
        (runOps sparse_indexer 64 [SSOp.ins 3, SSOp.ins 5, SSOp.ers 3,
          SSOp.ins 7, SSOp.clr, SSOp.ins 2]).has sparse_indexer v = true)
    ∧ (runOps sparse_indexer 64 [SSOp.ins 3, SSOp.ins 5, SSOp.ers 3,
        SSOp.ins 7, SSOp.clr, SSOp.ins 2]).dense.Nodup
    ∧ (∀ v, (runOps sparse_indexer 64 [SSOp.ins 3, SSOp.ins 5, SSOp.ers 3,
        SSOp.ins 7, SSOp.clr, SSOp.ins 2]).has sparse_indexer v = true →
        ∃ i, (runOps sparse_indexer 64 [SSOp.ins 3, SSOp.ins 5, SSOp.ers 3,
            SSOp.ins 7, SSOp.clr, SSOp.ins 2]).get_dense_index sparse_indexer v
            = some i ∧
          i < (runOps sparse_indexer 64 [SSOp.ins 3, SSOp.ins 5, SSOp.ers 3,
              SSOp.ins 7, SSOp.clr, SSOp.ins 2]).dense.length ∧
          (runOps sparse_indexer 64 [SSOp.ins 3, SSOp.ins 5, SSOp.ers 3,
            SSOp.ins 7, SSOp.clr, SSOp.ins 2]).dense.getD i 0 = v)
    ∧ (∀ v, (runOps sparse_indexer 64 [SSOp.ins 3, SSOp.ins 5, SSOp.ers 3,
        SSOp.ins 7, SSOp.clr, SSOp.ins 2]).has sparse_indexer v = false →
        (runOps sparse_indexer 64 [SSOp.ins 3, SSOp.ins 5, SSOp.ers 3,
          SSOp.ins 7, SSOp.clr, SSOp.ins 2]).get_dense_index sparse_indexer v
          = none) :=
  sparse_set_invariant_spec sparse_indexer 64 (fun a b h => h)
    [SSOp.ins 3, SSOp.ins 5, SSOp.ers 3, SSOp.ins 7, SSOp.clr, SSOp.ins 2]

namespace SparseMap

theorem map_WF_mk0 {α : Type} (ix : Nat → Nat) (M : Nat) :
    WF ix M (mk0 : SparseMap α) :=
  ⟨SparseSet.WF_mk0 ix M, rfl⟩

end SparseMap

namespace SparseSet

theorem find_dense_index_of_has {ix : Nat → Nat} {s : SparseSet} {k : Nat}
    (h : s.has ix k = true) :
    find_dense_index ix s k = some (s.sparse.getD (ix k) 0) := by
  rw [find_dense_index, if_pos h]

theorem find_dense_index_of_has_false {ix : Nat → Nat} {s : SparseSet}
    {k : Nat} (h : s.has ix k = false) : find_dense_index ix s k = none := by
  rw [find_dense_index, if_neg (by simp [h])]

theorem find_dense_index_some_spec {ix : Nat → Nat} {M : Nat} {s : SparseSet}
    {k i : Nat} (hwf : WF ix M s) (h : find_dense_index ix s k = some i) :
    s.has ix k = true ∧ i < s.dense.length ∧ s.dense.getD i 0 = k := by
  by_cases hh : s.has ix k = true
  · rw [find_dense_index_of_has hh] at h
    obtain ⟨_, h2, h3⟩ := has_spec hh
    obtain rfl := Option.some.inj h
    exact ⟨hh, h2, h3⟩
  · rw [find_dense_index_of_has_false (Bool.eq_false_of_ne_true hh)] at h
    cases h

end SparseSet

namespace SparseMap

theorem find_isSome_iff {α : Type} {ix : Nat → Nat} {M : Nat}
    {m : SparseMap α} (hwf : WF ix M m) (k : Nat) :
    (m.find ix k).isSome = m.keys.has ix k := by
  by_cases hh : m.keys.has ix k = true
  · obtain ⟨_, h2, _⟩ := SparseSet.has_spec hh
    rw [find, SparseSet.find_dense_index_of_has hh, hh]
    show (m.values[m.keys.sparse.getD (ix k) 0]?).isSome = true
    rw [List.getElem?_eq_getElem (by rw [hwf.2]; exact h2)]
    rfl
  · have hh2 := Bool.eq_false_of_ne_true hh
    rw [find, SparseSet.find_dense_index_of_has_false hh2, hh2]
    rfl

/-- `insert_or_assign` on a well-formed map whose stored keys do not collide
with `k` (other than `k` itself): keeps the invariant, makes `find k` yield
the assigned value, and at most adds `k` to the key set. -/
theorem insert_or_assign_spec {α : Type} {ix : Nat → Nat} {M : Nat}
    {m : SparseMap α} {k : Nat} {v : α} {m2 : SparseMap α} {b : Bool}
    (hwf : WF ix M m)
    (hfr : ∀ w ∈ m.keys.dense, w ≠ k → ix w ≠ ix k)
    (h : insert_or_assign ix M m k v = some (m2, b)) :
    WF ix M m2 ∧ m2.find ix k = some v ∧
    (∀ w, w ∈ m2.keys.dense ↔ w ∈ m.keys.dense ∨ w = k) := by
  rw [insert_or_assign] at h
  by_cases hh : m.keys.has ix k = true
  · rw [SparseSet.find_dense_index_of_has hh] at h
    simp only [Option.some_inj, Prod.mk.injEq] at h
    obtain ⟨rfl, rfl⟩ := h
    obtain ⟨h1, h2, h3⟩ := SparseSet.has_spec hh
    have hlen : m.values.length = m.keys.dense.length := hwf.2
    refine ⟨⟨hwf.1, by simpa using hlen⟩, ?_, ?_⟩
    · show find ix ⟨m.keys, m.values.set (m.keys.sparse.getD (ix k) 0) v⟩ k
        = some v
      rw [find, SparseSet.find_dense_index_of_has hh]
      show (m.values.set (m.keys.sparse.getD (ix k) 0) v)[
        m.keys.sparse.getD (ix k) 0]? = some v
      rw [List.getElem?_set_self (by rw [hlen]; exact h2)]
    · intro w
      constructor
      · exact fun hw => Or.inl hw
      · rintro (hw | rfl)
        · exact hw
        · exact (SparseSet.has_iff_mem hwf.1 _).mp hh
  · have hh2 := Bool.eq_false_of_ne_true hh
    rw [SparseSet.find_dense_index_of_has_false hh2] at h
    cases hins : SparseSet.insert ix M m.keys k with
    | none =>
      rw [hins] at h
      cases h
    | some p =>
      obtain ⟨ks, bb⟩ := p
      rw [hins] at h
      simp only [Option.some_inj, Prod.mk.injEq] at h
      obtain ⟨rfl, rfl⟩ := h
      have hknm : k ∉ m.keys.dense := SparseSet.not_mem_of_has_false hwf.1 hh2
      have hfr2 : ∀ w ∈ m.keys.dense, ix w ≠ ix k := fun w hw =>
        hfr w hw (fun he => hknm (he ▸ hw))
      obtain ⟨hKwf, hKdense, _⟩ :=
        SparseSet.insert_some_spec hwf.1 hfr2 hh2 hins
      have hklen : m.values.length = m.keys.dense.length := hwf.2
      refine ⟨⟨hKwf, by simp [hKdense, hklen]⟩, ?_, ?_⟩
      · have hkmem : k ∈ ks.dense := by
          rw [hKdense]
          simp
        have hkh : ks.has ix k = true := (SparseSet.has_iff_mem hKwf k).mpr hkmem
        obtain ⟨i, hfd⟩ : ∃ i, SparseSet.find_dense_index ix ks k = some i :=
          ⟨_, SparseSet.find_dense_index_of_has hkh⟩
        obtain ⟨_, hilt, hik⟩ := SparseSet.find_dense_index_some_spec hKwf hfd
        have hieq : i = m.keys.dense.length := by
          by_contra hne
          have hilt2 : i < m.keys.dense.length := by
            rw [hKdense] at hilt
            simp at hilt
            omega
          rw [hKdense, SparseSet.getD_append_left hilt2] at hik
          exact hknm (hik ▸ SparseSet.getD_mem hilt2)
        show find ix ⟨ks, m.values ++ [v]⟩ k = some v
        rw [find, hfd]
        show (m.values ++ [v])[i]? = some v
        rw [hieq, ← hklen, List.getElem?_concat_length]
      · intro w
        show w ∈ ks.dense ↔ _
        rw [hKdense]
        simp

theorem unordered_erase_of_none {α : Type} [Inhabited α] {ix : Nat → Nat}
    {m : SparseMap α} {k : Nat}
    (h : SparseSet.find_dense_index ix m.keys k = none) :
    unordered_erase ix m k = (m, false) := by
  rw [unordered_erase, h]

theorem unordered_erase_of_some {α : Type} [Inhabited α] {ix : Nat → Nat}
    {m : SparseMap α} {k i : Nat}
    (h : SparseSet.find_dense_index ix m.keys k = some i) :
    unordered_erase ix m k =
      if i ≠ m.values.length - 1 then
        (⟨(m.keys.unordered_erase ix k).1,
          ((m.values.set i (m.values.getD (m.values.length - 1) default)).set
            (m.values.length - 1) (m.values.getD i default)).dropLast⟩, true)
      else
        (⟨(m.keys.unordered_erase ix k).1, m.values.dropLast⟩, true) := by
  rw [unordered_erase, h]

/-- `unordered_erase` keeps the invariant and only removes `k`. -/
theorem map_erase_spec {α : Type} [Inhabited α] {ix : Nat → Nat} {M : Nat}
    {m : SparseMap α} {k : Nat} (hwf : WF ix M m) :
    WF ix M (unordered_erase ix m k).1 ∧
    ∀ w ∈ (unordered_erase ix m k).1.keys.dense,
      w ∈ m.keys.dense ∧ w ≠ k := by
  cases hfd : SparseSet.find_dense_index ix m.keys k with
  | none =>
    have hh : m.keys.has ix k = false := by
      by_cases h : m.keys.has ix k = true
      · rw [SparseSet.find_dense_index_of_has h] at hfd
        cases hfd
      · exact Bool.eq_false_of_ne_true h
    rw [unordered_erase_of_none hfd]
    refine ⟨hwf, ?_⟩
    intro w hw
    exact ⟨hw, fun he =>
      (SparseSet.not_mem_of_has_false hwf.1 hh) (he ▸ hw)⟩
  | some i =>
    obtain ⟨hh, hi, hik⟩ := SparseSet.find_dense_index_some_spec hwf.1 hfd
    obtain ⟨hEwf, _, hElen, _, hEmem⟩ := SparseSet.erase_spec hwf.1 hh
    rw [unordered_erase_of_some hfd]
    by_cases hil : i ≠ m.values.length - 1
    · rw [if_pos hil]
      refine ⟨⟨hEwf, ?_⟩, ?_⟩
      · show (((m.values.set i _).set _ _).dropLast).length = _
        simp only [List.length_dropLast, List.length_set]
        rw [hElen, hwf.2]
      · intro w hw
        exact (hEmem w).mp hw
    · rw [if_neg hil]
      refine ⟨⟨hEwf, ?_⟩, ?_⟩
      · show (m.values.dropLast).length = _
        simp only [List.length_dropLast]
        rw [hElen, hwf.2]
      · intro w hw
        exact (hEmem w).mp hw

end SparseMap

namespace Reg

theorem RWF_mk0 {α : Type} (M : Nat) : RWF M (mk0 : Reg α) := by
  refine ⟨SparseSet.WF_mk0 _ _, ?_, ?_, ?_, ?_, ?_, ?_, ?_⟩ <;>
    simp [mk0, SparseSet.mk0, entity_id_index_mask]

end Reg

theorem entity_id_index_mask_eq : entity_id_index_mask = 2 ^ 22 - 1 := by
  rw [entity_id_index_mask, entity_id_index_bits, Nat.shiftLeft_eq, Nat.one_mul]

theorem entity_id_index_lt (id : Nat) : entity_id_index id < 2 ^ 22 := by
  rw [entity_id_index_eq_mod]
  exact Nat.mod_lt _ (by norm_num)

theorem entity_id_index_upgrade (id : Nat) :
    entity_id_index (upgrade_entity_id id) = entity_id_index id :=
  entity_id_index_join _ (entity_id_index_lt id)

theorem upgrade_entity_id_lt (id : Nat) : upgrade_entity_id id < 2 ^ 32 :=
  Nat.mod_lt _ (by norm_num)

theorem entity_id_index_of_le_mask {n : Nat}
    (h : n ≤ entity_id_index_mask) : entity_id_index n = n := by
  rw [entity_id_index_eq_mod, Nat.mod_eq_of_lt]
  rw [entity_id_index_mask_eq] at h
  omega

/-- The id handed out by upgrading differs from the stale id: the version
moved by one step of the mod-`2 ^ 10` cycle. -/
theorem upgrade_entity_id_ne (id : Nat) (hid : id < 2 ^ 32) :
    upgrade_entity_id id ≠ id := by
  have hidx := entity_id_index_lt id
  have hver : entity_id_version id < 2 ^ 10 := by
    rw [entity_id_version_eq_mod]
    exact Nat.mod_lt _ (by norm_num)
  have hdecomp : id = entity_id_index id + 2 ^ 22 * entity_id_version id := by
    rw [entity_id_index_eq_mod, entity_id_version_eq_mod,
      Nat.mod_eq_of_lt (by omega : id / 2 ^ 22 < 2 ^ 10)]
    omega
  intro he
  rw [upgrade_entity_id,
    entity_id_join_eq_add ((entity_id_version id + 1) % 2 ^ 32) hidx,
    Nat.mod_eq_of_lt (by omega : entity_id_version id + 1 < 2 ^ 32)] at he
  omega

theorem getLast?_decomp {l : List Nat} {a : Nat} (h : l.getLast? = some a) :
    l = l.dropLast ++ [a] := by
  have hne : l ≠ [] := by
    intro he
    rw [he] at h
    cases h
  rw [List.getLast?_eq_getLast l hne] at h
  obtain rfl := Option.some.inj h
  exact (List.dropLast_concat_getLast hne).symm

theorem nodup_length_le {l : List Nat} {n : Nat} (hnd : l.Nodup)
    (hb : ∀ x ∈ l, 1 ≤ x ∧ x ≤ n) : l.length ≤ n := by
  classical
  have h1 : l.toFinset.card = l.length := List.toFinset_card_of_nodup hnd
  have h2 : l.toFinset ⊆ Finset.Icc 1 n := by
    intro x hx
    rw [List.mem_toFinset] at hx
    rw [Finset.mem_Icc]
    exact hb x hx
  have h3 := Finset.card_le_card h2
  rw [h1, Nat.card_Icc] at h3
  omega

namespace SparseSet

/-- Two stored values with the same index slot are the same value. -/
theorem WF_mem_inj {ix : Nat → Nat} {M : Nat} {s : SparseSet}
    (hwf : WF ix M s) :
    ∀ x ∈ s.dense, ∀ y ∈ s.dense, ix x = ix y → x = y := by
  intro x hx y hy he
  obtain ⟨i, hi, hix⟩ := mem_iff_exists_getD.mp hx
  obtain ⟨j, hj, hjy⟩ := mem_iff_exists_getD.mp hy
  have b1 := (hwf.2 i hi).2
  have b2 := (hwf.2 j hj).2
  rw [hix] at b1
  rw [hjy] at b2
  rw [he, b2] at b1
  rw [← hix, ← hjy, b1]

theorem nodup_map_ix {ix : Nat → Nat} {M : Nat} {s : SparseSet}
    (hwf : WF ix M s) : (s.dense.map ix).Nodup :=
  List.Nodup.map_on (WF_mem_inj hwf) (nodup_dense hwf)

end SparseSet

theorem lookup_map_update {α : Type} {f : Nat} {st : SparseMap α}
    (l : List (Nat × SparseMap α)) (h : (l.lookup f).isSome = true) :
    (l.map (fun p => if p.1 = f then (f, st) else p)).lookup f = some st := by
  induction l with
  | nil => cases h
  | cons p tl ih =>
    obtain ⟨k, v⟩ := p
    rw [List.lookup_cons] at h
    by_cases hp : k = f
    · subst hp
      simp [List.lookup_cons]
    · have hbeq : (f == k) = false := beq_false_of_ne (fun he => hp he.symm)
      rw [hbeq] at h
      simp only [List.map_cons, if_neg hp]
      rw [List.lookup_cons, hbeq]
      exact ih h

theorem lookup_map_update_ne {α : Type} {f f2 : Nat} {st : SparseMap α}
    (hne : f2 ≠ f) (l : List (Nat × SparseMap α)) :
    (l.map (fun p => if p.1 = f then (f, st) else p)).lookup f2
      = l.lookup f2 := by
  induction l with
  | nil => rfl
  | cons p tl ih =>
    obtain ⟨k, v⟩ := p
    by_cases hp : k = f
    · subst hp
      simp only [List.map_cons, if_true]
      rw [List.lookup_cons, List.lookup_cons, beq_false_of_ne hne]
      exact ih
    · simp only [List.map_cons, if_neg hp]
      rw [List.lookup_cons, List.lookup_cons]
      cases hbeq : f2 == k with
      | true => rfl
      | false => exact ih

theorem lookup_append_single {α : Type} {f : Nat} {st : SparseMap α}
    (l : List (Nat × SparseMap α)) (h : l.lookup f = none) :
    (l ++ [(f, st)]).lookup f = some st := by
  induction l with
  | nil => simp [List.lookup_cons]
  | cons p tl ih =>
    obtain ⟨k, v⟩ := p
    rw [List.lookup_cons] at h
    rw [List.cons_append, List.lookup_cons]
    cases hbeq : f == k with
    | true =>
      rw [hbeq] at h
      simp at h
    | false =>
      rw [hbeq] at h
      exact ih h

theorem lookup_append_single_ne {α : Type} {f f2 : Nat} {st : SparseMap α}
    (hne : f2 ≠ f) (l : List (Nat × SparseMap α)) (h : l.lookup f2 = none) :
    (l ++ [(f, st)]).lookup f2 = none := by
  induction l with
  | nil =>
    rw [List.nil_append, List.lookup_cons, beq_false_of_ne hne]
    rfl
  | cons p tl ih =>
    obtain ⟨k, v⟩ := p
    rw [List.lookup_cons] at h
    rw [List.cons_append, List.lookup_cons]
    cases hbeq : f2 == k with
    | true =>
      rw [hbeq] at h
      simp at h
    | false =>
      rw [hbeq] at h
      exact ih h

theorem entity_id_indexer_eq (id : Nat) :
    entity_id_indexer id = entity_id_index id := rfl

namespace Reg

/-- Effect and invariant preservation of a successful `create_entity`. -/
theorem create_entity_ok_spec {α : Type} {M : Nat} {r r2 : Reg α} {id : Nat}
    (hwf : RWF M r) (h : create_entity M r = .ok (r2, id)) :
    RWF M r2 ∧
    r2.entity_ids.dense = r.entity_ids.dense ++ [id] ∧
    r2.storages = r.storages ∧
    r.free_capacity ≤ r2.free_capacity ∧
    (∀ fid, r.free_entity_ids.getLast? = some fid →
        id = upgrade_entity_id fid ∧
        r2.free_entity_ids = r.free_entity_ids.dropLast ∧
        r2.last_entity_id = r.last_entity_id) ∧
    (r.free_entity_ids.getLast? = none →
        id = r.last_entity_id + 1 ∧
        r2.free_entity_ids = [] ∧
        r2.last_entity_id = r.last_entity_id + 1) := by
  obtain ⟨hW, hDb, hFb, hNd, hLm, hBud, hCap, hSt⟩ := hwf
  rw [List.map_append, List.nodup_append] at hNd
  obtain ⟨hnd1, hnd2, hdisj⟩ := hNd
  cases hl : r.free_entity_ids.getLast? with
  | some fid =>
    rw [create_entity] at h
    simp only [hl] at h
    cases hins : SparseSet.insert entity_id_indexer M r.entity_ids
        (upgrade_entity_id fid) with
    | none =>
      simp [hins] at h
    | some p =>
      obtain ⟨s2, bb⟩ := p
      simp only [hins, Except.ok.injEq, Prod.mk.injEq] at h
      obtain ⟨rfl, rfl⟩ := h
      have hfid_mem : fid ∈ r.free_entity_ids :=
        List.mem_of_getLast?_eq_some hl
      obtain ⟨hfid1, hfid2, hfid3⟩ := hFb fid hfid_mem
      have hixu : entity_id_indexer (upgrade_entity_id fid)
          = entity_id_indexer fid := by
        rw [entity_id_indexer_eq, entity_id_indexer_eq, entity_id_index_upgrade]
      have hfr : ∀ w ∈ r.entity_ids.dense,
          entity_id_indexer w ≠ entity_id_indexer (upgrade_entity_id fid) := by
        intro w hw he
        rw [hixu] at he
        exact hdisj (List.mem_map_of_mem _ hw)
          (he ▸ List.mem_map_of_mem _ hfid_mem)
      have hh : r.entity_ids.has entity_id_indexer (upgrade_entity_id fid)
          = false := by
        by_cases hb : r.entity_ids.has entity_id_indexer (upgrade_entity_id fid)
            = true
        · exact absurd rfl (hfr _ ((SparseSet.has_iff_mem hW _).mp hb))
        · exact Bool.eq_false_of_ne_true hb
      obtain ⟨hW2, hD2, _⟩ := SparseSet.insert_some_spec hW hfr hh hins
      have hfd := getLast?_decomp hl
      have hflen : r.free_entity_ids.length
          = r.free_entity_ids.dropLast.length + 1 := by
        conv_lhs => rw [hfd]
        simp
      have hnd2d : ((r.free_entity_ids.dropLast.map entity_id_indexer).Nodup ∧
          entity_id_indexer fid
            ∉ r.free_entity_ids.dropLast.map entity_id_indexer) := by
        have h2 := hnd2
        rw [hfd, List.map_append, List.nodup_append] at h2
        obtain ⟨h2a, _, h2c⟩ := h2
        exact ⟨h2a, fun hm => h2c hm (by simp)⟩
      refine ⟨⟨hW2, ?_, ?_, ?_, hLm, ?_, hCap, ?_⟩, hD2, rfl, Nat.le_refl _,
        ?_, ?_⟩
      · intro w hw
        rw [hD2] at hw
        rcases List.mem_append.mp hw with hw | hw
        · exact hDb w hw
        · obtain rfl := List.mem_singleton.mp hw
          refine ⟨?_, ?_, upgrade_entity_id_lt fid⟩
          · rw [entity_id_index_upgrade]; exact hfid1
          · rw [entity_id_index_upgrade]; exact hfid2
      · intro w hw
        exact hFb w ((List.dropLast_sublist r.free_entity_ids).subset hw)
      · show ((s2.dense ++ r.free_entity_ids.dropLast).map
            entity_id_indexer).Nodup
        rw [List.map_append, List.nodup_append]
        refine ⟨?_, hnd2d.1, ?_⟩
        · rw [hD2, List.map_append, List.nodup_append]
          refine ⟨hnd1, List.nodup_singleton _, ?_⟩
          intro a ha hb
          simp only [List.map_cons, List.map_nil, List.mem_singleton] at hb
          rw [hb, hixu] at ha
          exact hdisj ha (List.mem_map_of_mem _ hfid_mem)
        · intro a ha hb
          rw [hD2, List.map_append] at ha
          rcases List.mem_append.mp ha with ha | ha
          · have : a ∈ r.free_entity_ids.map entity_id_indexer := by
              rw [hfd, List.map_append]
              exact List.mem_append.mpr (Or.inl hb)
            exact hdisj ha this
          · simp only [List.map_cons, List.map_nil, List.mem_singleton] at ha
            rw [ha, hixu] at hb
            exact hnd2d.2 hb
      · show r.free_entity_ids.dropLast.length + s2.dense.length
            ≤ r.free_capacity
        rw [hD2]
        simp only [List.length_append, List.length_cons, List.length_nil]
        omega
      · intro p hp
        obtain ⟨hpw, hpk⟩ := hSt p hp
        refine ⟨hpw, ?_⟩
        intro w hw
        rw [hD2]
        exact List.mem_append.mpr (Or.inl (hpk w hw))
      · intro fid2 hl2
        obtain rfl := Option.some.inj hl2
        exact ⟨rfl, rfl, rfl⟩
      · intro h0
        exact Option.noConfusion h0
  | none =>
    rw [create_entity] at h
    simp only [hl] at h
    have hfree : r.free_entity_ids = [] := List.getLast?_eq_none_iff.mp hl
    by_cases hlast : entity_id_index_mask ≤ r.last_entity_id
    · rw [if_pos hlast] at h
      cases h
    · rw [if_neg hlast] at h
      cases hcap : (if r.free_capacity ≤ r.entity_ids.dense.length then
          next_capacity_size r.free_capacity (r.entity_ids.dense.length + 1) M
        else some r.free_capacity) with
      | none =>
        simp [hcap] at h
      | some cap2 =>
        simp only [hcap] at h
        cases hins : SparseSet.insert entity_id_indexer M r.entity_ids
            (r.last_entity_id + 1) with
        | none =>
          simp [hins] at h
        | some p =>
          obtain ⟨s2, bb⟩ := p
          simp only [hins, Except.ok.injEq, Prod.mk.injEq] at h
          obtain ⟨rfl, rfl⟩ := h
          have hlast2 : r.last_entity_id + 1 ≤ entity_id_index_mask := by
            omega
          have hixn : entity_id_indexer (r.last_entity_id + 1)
              = r.last_entity_id + 1 := by
            rw [entity_id_indexer_eq]
            exact entity_id_index_of_le_mask hlast2
          have hfr : ∀ w ∈ r.entity_ids.dense, entity_id_indexer w
              ≠ entity_id_indexer (r.last_entity_id + 1) := by
            intro w hw he
            obtain ⟨_, hw2, _⟩ := hDb w hw
            rw [hixn] at he
            rw [entity_id_indexer_eq] at he
            omega
          have hh : r.entity_ids.has entity_id_indexer
              (r.last_entity_id + 1) = false := by
            by_cases hb : r.entity_ids.has entity_id_indexer
                (r.last_entity_id + 1) = true
            · exact absurd rfl (hfr _ ((SparseSet.has_iff_mem hW _).mp hb))
            · exact Bool.eq_false_of_ne_true hb
          obtain ⟨hW2, hD2, _⟩ := SparseSet.insert_some_spec hW hfr hh hins
          have hcap2 : r.entity_ids.dense.length + 1 ≤ cap2 ∧ cap2 ≤ M ∧
              r.free_capacity ≤ cap2 := by
            by_cases hble : r.free_capacity ≤ r.entity_ids.dense.length
            · rw [if_pos hble] at hcap
              obtain ⟨ha, hb, hc⟩ := SparseSet.next_capacity_size_bounds hCap hcap
              exact ⟨ha, hc, hb⟩
            · rw [if_neg hble] at hcap
              obtain rfl := Option.some.inj hcap
              omega
          have hmask32 : entity_id_index_mask < 2 ^ 32 := by
            rw [entity_id_index_mask_eq]
            norm_num
          refine ⟨⟨hW2, ?_, ?_, ?_, hlast2, ?_, hcap2.2.1, ?_⟩, hD2, rfl,
            hcap2.2.2, ?_, ?_⟩
          · intro w hw
            dsimp only
            rw [hD2] at hw
            rcases List.mem_append.mp hw with hw | hw
            · obtain ⟨ha, hb, hc⟩ := hDb w hw
              exact ⟨ha, by omega, hc⟩
            · obtain rfl := List.mem_singleton.mp hw
              rw [entity_id_index_of_le_mask hlast2]
              exact ⟨by omega, Nat.le_refl _, by omega⟩
          · intro w hw
            dsimp only
            obtain ⟨ha, hb, hc⟩ := hFb w hw
            exact ⟨ha, by omega, hc⟩
          · show ((s2.dense ++ r.free_entity_ids).map entity_id_indexer).Nodup
            rw [hfree, List.append_nil, hD2, List.map_append, List.nodup_append]
            refine ⟨hnd1, List.nodup_singleton _, ?_⟩
            intro a ha hb
            simp only [List.map_cons, List.map_nil, List.mem_singleton] at hb
            obtain ⟨w, hw, rfl⟩ := List.mem_map.mp ha
            obtain ⟨_, hw2, _⟩ := hDb w hw
            rw [hixn] at hb
            rw [entity_id_indexer_eq] at hb
            omega
          · show r.free_entity_ids.length + s2.dense.length ≤ cap2
            rw [hfree, hD2]
            simp only [List.length_nil, List.length_append, List.length_cons,
              List.length_nil]
            omega
          · intro p hp
            obtain ⟨hpw, hpk⟩ := hSt p hp
            refine ⟨hpw, ?_⟩
            intro w hw
            rw [hD2]
            exact List.mem_append.mpr (Or.inl (hpk w hw))
          · intro fid2 hl2
            exact Option.noConfusion hl2
          · intro _
            exact ⟨rfl, hfree, rfl⟩

/-- C5's equivalence, as a lemma: the logic error (entity index overflow) is
raised exactly when the free list is empty and `last_entity_id_` has reached
the index mask. -/
theorem create_entity_overflow_iff {α : Type} (M : Nat) (r : Reg α) :
    create_entity M r = .error .indexOverflow ↔
      (r.free_entity_ids = [] ∧ entity_id_index_mask ≤ r.last_entity_id) := by
  cases hl : r.free_entity_ids.getLast? with
  | some fid =>
    rw [create_entity]
    simp only [hl]
    constructor
    · intro h
      cases hins : SparseSet.insert entity_id_indexer M r.entity_ids
          (upgrade_entity_id fid) with
      | some p =>
        obtain ⟨s2, bb⟩ := p
        simp [hins] at h
      | none =>
        simp [hins] at h
    · rintro ⟨hfe, _⟩
      rw [hfe] at hl
      cases hl
  | none =>
    rw [create_entity]
    simp only [hl]
    have hfree : r.free_entity_ids = [] := List.getLast?_eq_none_iff.mp hl
    by_cases hlast : entity_id_index_mask ≤ r.last_entity_id
    · rw [if_pos hlast]
      simp [hfree, hlast]
    · rw [if_neg hlast]
      constructor
      · intro h
        cases hcap : (if r.free_capacity ≤ r.entity_ids.dense.length then
            next_capacity_size r.free_capacity
              (r.entity_ids.dense.length + 1) M
          else some r.free_capacity) with
        | none => simp [hcap] at h
        | some cap2 =>
          cases hins : SparseSet.insert entity_id_indexer M r.entity_ids
              (r.last_entity_id + 1) with
          | none => simp [hcap, hins] at h
          | some p =>
            obtain ⟨s2, bb⟩ := p
            simp [hcap, hins] at h
      · rintro ⟨_, hl2⟩
        exact absurd hl2 hlast

/-- Distinct live index fields in `[1, last]` bound the live count. -/
theorem dense_length_le_last {α : Type} {M : Nat} {r : Reg α}
    (hwf : RWF M r) : r.entity_ids.dense.length ≤ r.last_entity_id := by
  obtain ⟨hW, hDb, _, hNd, _⟩ := hwf
  rw [List.map_append] at hNd
  have hnd1 := hNd.of_append_left
  have hlen : (r.entity_ids.dense.map entity_id_indexer).length
      = r.entity_ids.dense.length := List.length_map _ _
  rw [← hlen]
  refine nodup_length_le hnd1 ?_
  intro x hx
  obtain ⟨w, hw, rfl⟩ := List.mem_map.mp hx
  obtain ⟨h1, h2, _⟩ := hDb w hw
  exact ⟨h1, h2⟩

/-- With an empty free list, capacity headroom and index space left,
`create_entity` succeeds and mints `last_entity_id_ + 1`. -/
theorem create_entity_fresh_ok {α : Type} {M : Nat} {r : Reg α}
    (hwf : RWF M r) (hfree : r.free_entity_ids = [])
    (hlast : r.last_entity_id < entity_id_index_mask) (hM : 2 ^ 22 ≤ M) :
    ∃ r2, create_entity M r = .ok (r2, r.last_entity_id + 1) := by
  have hl : r.free_entity_ids.getLast? = none := by
    rw [hfree]
    rfl
  have hmaskv : entity_id_index_mask = 2 ^ 22 - 1 := entity_id_index_mask_eq
  rw [create_entity]
  simp only [hl]
  rw [if_neg (by omega)]
  have hcap : ∃ cap2, (if r.free_capacity ≤ r.entity_ids.dense.length then
      next_capacity_size r.free_capacity (r.entity_ids.dense.length + 1) M
    else some r.free_capacity) = some cap2 := by
    split
    · apply SparseSet.next_capacity_size_some
      have hdl := dense_length_le_last hwf
      omega
    · exact ⟨_, rfl⟩
  obtain ⟨cap2, hcap⟩ := hcap
  simp only [hcap]
  have hins : ∃ s2 b, SparseSet.insert entity_id_indexer M r.entity_ids
      (r.last_entity_id + 1) = some (s2, b) := by
    apply SparseSet.insert_isSome
    rw [entity_id_indexer_eq, entity_id_index_of_le_mask (by omega)]
    omega
  obtain ⟨s2, b, hins⟩ := hins
  simp only [hins]
  exact ⟨_, rfl⟩

theorem remove_all_components_storages {α : Type} [Inhabited α] {M : Nat}
    {r : Reg α} {e : Nat}
    (h : ∀ p ∈ r.storages, SparseMap.WF entity_id_indexer M p.2 ∧
        ∀ id ∈ p.2.keys.dense, id ∈ r.entity_ids.dense) :
    ∀ p ∈ (remove_all_components r e).storages,
      SparseMap.WF entity_id_indexer M p.2 ∧
      ∀ id ∈ p.2.keys.dense, id ∈ r.entity_ids.dense ∧ id ≠ e := by
  intro p hp
  rw [remove_all_components] at hp
  dsimp only at hp
  obtain ⟨q, hq, rfl⟩ := List.mem_map.mp hp
  obtain ⟨hqw, hqk⟩ := h q hq
  obtain ⟨hq2, hq3⟩ := SparseMap.map_erase_spec (k := e) hqw
  refine ⟨hq2, ?_⟩
  intro id hid
  obtain ⟨hid1, hid2⟩ := hq3 id hid
  exact ⟨hqk id hid1, hid2⟩

theorem valid_entity_false_of_mem_free {α : Type} {M : Nat} {r : Reg α}
    (hwf : RWF M r) {e : Nat} (he : e ∈ r.free_entity_ids) :
    valid_entity r e = false := by
  obtain ⟨hW, _, _, hNd, _⟩ := hwf
  rw [List.map_append, List.nodup_append] at hNd
  obtain ⟨_, _, hdisj⟩ := hNd
  by_cases hb : valid_entity r e = true
  · exfalso
    exact hdisj (List.mem_map_of_mem _ ((SparseSet.has_iff_mem hW e).mp hb))
      (List.mem_map_of_mem _ he)
  · exact Bool.eq_false_of_ne_true hb

/-- Effect and invariant preservation of `destroy_entity`: a live entity is
removed from the dense array and pushed onto the free list whose capacity
headroom (I6) guarantees the push allocates nothing; a stale handle leaves
the live set and the free list untouched. -/
theorem destroy_entity_spec {α : Type} [Inhabited α] {M : Nat} {r : Reg α}
    {e : Nat} (hwf : RWF M r) :
    RWF M (destroy_entity r e) ∧
    (valid_entity r e = true →
      (destroy_entity r e).free_entity_ids = r.free_entity_ids ++ [e] ∧
      valid_entity (destroy_entity r e) e = false ∧
      r.free_entity_ids.length < r.free_capacity ∧
      (destroy_entity r e).free_capacity = r.free_capacity ∧
      (destroy_entity r e).entity_ids.dense.length
        = r.entity_ids.dense.length - 1 ∧
      (∀ w, w ∈ (destroy_entity r e).entity_ids.dense ↔
        w ∈ r.entity_ids.dense ∧ w ≠ e)) ∧
    (valid_entity r e = false →
      (destroy_entity r e).free_entity_ids = r.free_entity_ids ∧
      (destroy_entity r e).entity_ids = r.entity_ids) := by
  obtain ⟨hW, hDb, hFb, hNd, hLm, hBud, hCap, hSt⟩ := hwf
  rw [List.map_append, List.nodup_append] at hNd
  obtain ⟨hnd1, hnd2, hdisj⟩ := hNd
  by_cases hv : valid_entity r e = true
  · have hh : r.entity_ids.has entity_id_indexer e = true := hv
    obtain ⟨hEwf, hE2, hElen, hEslen, hEmem⟩ := SparseSet.erase_spec hW hh
    have hemem : e ∈ r.entity_ids.dense := (SparseSet.has_iff_mem hW e).mp hh
    have hdpos : 0 < r.entity_ids.dense.length :=
      List.length_pos.mpr (fun h0 => by rw [h0] at hemem; cases hemem)
    have hdest : destroy_entity r e = { remove_all_components r e with
        entity_ids :=
          (SparseSet.unordered_erase entity_id_indexer r.entity_ids e).1,
        free_entity_ids := r.free_entity_ids ++ [e] } := by
      rw [destroy_entity, if_pos hE2]
    rw [hdest]
    have hvf : (SparseSet.unordered_erase entity_id_indexer
        r.entity_ids e).1.has entity_id_indexer e = false := by
      by_cases hb : (SparseSet.unordered_erase entity_id_indexer
          r.entity_ids e).1.has entity_id_indexer e = true
      · have := (SparseSet.has_iff_mem hEwf e).mp hb
        rw [hEmem] at this
        exact absurd rfl this.2
      · exact Bool.eq_false_of_ne_true hb
    refine ⟨⟨hEwf, ?_, ?_, ?_, hLm, ?_, hCap, ?_⟩, ?_, ?_⟩
    · intro w hw
      dsimp only at hw
      exact hDb w ((hEmem w).mp hw).1
    · intro w hw
      dsimp only at hw
      rcases List.mem_append.mp hw with hw | hw
      · exact hFb w hw
      · obtain rfl := List.mem_singleton.mp hw
        exact hDb w hemem
    · show (((SparseSet.unordered_erase entity_id_indexer r.entity_ids e).1.dense
          ++ (r.free_entity_ids ++ [e])).map entity_id_indexer).Nodup
      rw [List.map_append, List.nodup_append]
      refine ⟨SparseSet.nodup_map_ix hEwf, ?_, ?_⟩
      · rw [List.map_append, List.nodup_append]
        refine ⟨hnd2, List.nodup_singleton _, ?_⟩
        intro a ha hb
        simp only [List.map_cons, List.map_nil, List.mem_singleton] at hb
        rw [hb] at ha
        exact hdisj (List.mem_map_of_mem _ hemem) ha
      · intro a ha hb
        obtain ⟨w, hw, rfl⟩ := List.mem_map.mp ha
        obtain ⟨hwd, hwne⟩ := (hEmem w).mp hw
        rw [List.map_append] at hb
        rcases List.mem_append.mp hb with hb | hb
        · exact hdisj (List.mem_map_of_mem _ hwd) hb
        · simp only [List.map_cons, List.map_nil, List.mem_singleton] at hb
          exact hwne (SparseSet.WF_mem_inj hW w hwd e hemem hb)
    · show (r.free_entity_ids ++ [e]).length
          + (SparseSet.unordered_erase entity_id_indexer
              r.entity_ids e).1.dense.length ≤ r.free_capacity
      rw [List.length_append, hElen]
      simp only [List.length_cons, List.length_nil]
      omega
    · intro p hp
      dsimp only at hp
      obtain ⟨hpw, hpk⟩ := remove_all_components_storages hSt p hp
      refine ⟨hpw, ?_⟩
      intro w hw
      obtain ⟨hw1, hw2⟩ := hpk w hw
      exact (hEmem w).mpr ⟨hw1, hw2⟩
    · intro _
      exact ⟨rfl, hvf, by omega, rfl, hElen, hEmem⟩
    · intro h0
      rw [hv] at h0
      cases h0
  · have hh2 : r.entity_ids.has entity_id_indexer e = false :=
      Bool.eq_false_of_ne_true hv
    have herase := SparseSet.erase_of_has_false (v := e) hh2
    have hdest : destroy_entity r e = remove_all_components r e := by
      rw [destroy_entity, herase, if_neg (by simp)]
      rfl
    rw [hdest]
    refine ⟨⟨hW, hDb, hFb, ?_, hLm, hBud, hCap, ?_⟩, ?_, ?_⟩
    · rw [List.map_append, List.nodup_append]
      exact ⟨hnd1, hnd2, hdisj⟩
    · intro p hp
      obtain ⟨hpw, hpk⟩ := remove_all_components_storages hSt p hp
      exact ⟨hpw, fun id hid => (hpk id hid).1⟩
    · intro h0
      rw [h0] at hv
      exact absurd rfl hv
    · intro _
      exact ⟨rfl, rfl⟩

end Reg

theorem lookup_append_keep_ne {α : Type} {f f2 : Nat} {st : SparseMap α}
    (hne : f2 ≠ f) (l : List (Nat × SparseMap α)) :
    (l ++ [(f, st)]).lookup f2 = l.lookup f2 := by
  rw [List.lookup_append]
  have h1 : ([(f, st)] : List (Nat × SparseMap α)).lookup f2 = none := by
    rw [List.lookup_cons, beq_false_of_ne hne]
    rfl
  rw [h1]
  cases l.lookup f2 <;> rfl

theorem mem_of_lookup_eq_some {α : Type} {f : Nat} {st : SparseMap α}
    {l : List (Nat × SparseMap α)} (h : l.lookup f = some st) :
    (f, st) ∈ l := by
  obtain ⟨l1, l2, rfl, _⟩ := List.lookup_eq_some_iff.mp h
  exact List.mem_append.mpr (Or.inr (List.mem_cons_self _ _))

namespace Reg

/-- Effect and invariant preservation of `assign_component` on a live
entity: storage `f` now maps `e` to `v`, every other storage and all the
entity-allocation state are untouched. -/
theorem assign_component_spec {α : Type} {M : Nat} {r : Reg α} {f e : Nat}
    {v : α} {r2 : Reg α} (hwf : RWF M r) (hval : valid_entity r e = true)
    (h : assign_component M r f e v = some r2) :
    RWF M r2 ∧ find_component r2 f e = some v ∧
    exists_component r2 f e = true ∧
    r2.entity_ids = r.entity_ids ∧
    r2.free_entity_ids = r.free_entity_ids ∧
    r2.last_entity_id = r.last_entity_id ∧
    r2.free_capacity = r.free_capacity ∧
    (∀ f2, f2 ≠ f → r2.find_storage f2 = r.find_storage f2) := by
  obtain ⟨hW, hDb, hFb, hNd, hLm, hBud, hCap, hSt⟩ := hwf
  have hemem : e ∈ r.entity_ids.dense := (SparseSet.has_iff_mem hW e).mp hval
  have hst0 : SparseMap.WF entity_id_indexer M
        ((r.find_storage f).getD SparseMap.mk0) ∧
      ∀ id ∈ ((r.find_storage f).getD SparseMap.mk0).keys.dense,
        id ∈ r.entity_ids.dense := by
    cases hfs : r.find_storage f with
    | some st =>
      rw [find_storage] at hfs
      exact hSt (f, st) (mem_of_lookup_eq_some hfs)
    | none =>
      refine ⟨SparseMap.map_WF_mk0 _ _, ?_⟩
      intro id hid
      cases hid
  have hfr : ∀ w ∈ ((r.find_storage f).getD SparseMap.mk0).keys.dense,
      w ≠ e → entity_id_indexer w ≠ entity_id_indexer e := by
    intro w hw hne he
    exact hne (SparseSet.WF_mem_inj hW w (hst0.2 w hw) e hemem he)
  rw [assign_component] at h
  cases hia : SparseMap.insert_or_assign entity_id_indexer M
      ((r.find_storage f).getD SparseMap.mk0) e v with
  | none =>
    rw [hia] at h
    cases h
  | some p =>
    obtain ⟨st2, b⟩ := p
    rw [hia] at h
    obtain rfl := Option.some.inj h
    obtain ⟨hst2wf, hst2find, hst2keys⟩ :=
      SparseMap.insert_or_assign_spec hst0.1 hfr hia
    have hst2sub : ∀ id ∈ st2.keys.dense, id ∈ r.entity_ids.dense := by
      intro id hid
      rcases (hst2keys id).mp hid with hid | rfl
      · exact hst0.2 id hid
      · exact hemem
    have hfs2 : (r.set_storage f st2).find_storage f = some st2 := by
      rw [find_storage, set_storage]
      dsimp only
      by_cases hl : (r.storages.lookup f).isSome = true
      · rw [if_pos hl]
        exact lookup_map_update r.storages hl
      · rw [if_neg hl]
        apply lookup_append_single
        cases hl2 : r.storages.lookup f
        · rfl
        · rw [hl2] at hl
          exact absurd rfl hl
    have hfs2ne : ∀ f2, f2 ≠ f →
        (r.set_storage f st2).find_storage f2 = r.find_storage f2 := by
      intro f2 hne
      rw [find_storage, find_storage, set_storage]
      dsimp only
      by_cases hl : (r.storages.lookup f).isSome = true
      · rw [if_pos hl]
        exact lookup_map_update_ne hne r.storages
      · rw [if_neg hl]
        exact lookup_append_keep_ne hne r.storages
    refine ⟨⟨hW, hDb, hFb, hNd, hLm, hBud, hCap, ?_⟩, ?_, ?_, rfl, rfl,
      rfl, rfl, hfs2ne⟩
    · intro p hp
      rw [set_storage] at hp
      dsimp only at hp
      by_cases hl : (r.storages.lookup f).isSome = true
      · rw [if_pos hl] at hp
        obtain ⟨q, hq, rfl⟩ := List.mem_map.mp hp
        by_cases hqf : q.1 = f
        · rw [if_pos hqf]
          exact ⟨hst2wf, hst2sub⟩
        · rw [if_neg hqf]
          exact hSt q hq
      · rw [if_neg hl] at hp
        rcases List.mem_append.mp hp with hp | hp
        · exact hSt p hp
        · obtain rfl := List.mem_singleton.mp hp
          exact ⟨hst2wf, hst2sub⟩
    · rw [find_component]
      simp only [hfs2]
      exact hst2find
    · rw [exists_component]
      simp only [hfs2]
      have := SparseMap.find_isSome_iff hst2wf e
      rw [hst2find] at this
      exact this.symm

/-- C9's registry-level core: on an invalid (destroyed or never-live)
entity, `find_component` returns `nullptr` and `exists_component` returns
`false`, storage present or not. -/
theorem find_component_invalid {α : Type} {M : Nat} {r : Reg α}
    (hwf : RWF M r) {e : Nat} (hval : valid_entity r e = false) (f : Nat) :
    find_component r f e = none ∧ exists_component r f e = false := by
  obtain ⟨hW, _, _, _, _, _, _, hSt⟩ := hwf
  have hnm : e ∉ r.entity_ids.dense := by
    intro hm
    rw [← SparseSet.has_iff_mem hW e] at hm
    rw [valid_entity] at hval
    rw [hval] at hm
    cases hm
  rw [find_component, exists_component]
  cases hfs : r.find_storage f with
  | none => exact ⟨rfl, rfl⟩
  | some st =>
    have hfs2 := hfs
    rw [find_storage] at hfs2
    obtain ⟨hstwf, hstk⟩ := hSt (f, st) (mem_of_lookup_eq_some hfs2)
    have hknm : st.keys.has entity_id_indexer e = false := by
      by_cases hb : st.keys.has entity_id_indexer e = true
      · exact absurd (hstk e ((SparseSet.has_iff_mem hstwf.1 e).mp hb)) hnm
      · exact Bool.eq_false_of_ne_true hb
    constructor
    · show SparseMap.find entity_id_indexer st e = none
      rw [SparseMap.find, SparseSet.find_dense_index_of_has_false hknm]
    · exact hknm

/-- Every reachable registry state satisfies the invariant. -/
theorem Reach_RWF {α : Type} [Inhabited α] {M : Nat} {r : Reg α}
    (h : Reach M r) : RWF M r := by
  induction h with
  | init => exact RWF_mk0 M
  | create _ hok ih => exact (create_entity_ok_spec ih hok).1
  | destroy e _ ih => exact (destroy_entity_spec ih).1

/-- The fresh-allocation iteration of C5: `n` creates from a state with an
empty free list, all succeeding, each bumping `last_entity_id_`. -/
theorem createN_fresh {α : Type} {M : Nat} (hM : 2 ^ 22 ≤ M) :
    ∀ (n : Nat) (r : Reg α), RWF M r → r.free_entity_ids = [] →
      r.last_entity_id + n ≤ entity_id_index_mask →
      ∃ r2, createN M n r = some r2 ∧ RWF M r2 ∧
        r2.free_entity_ids = [] ∧
        r2.last_entity_id = r.last_entity_id + n ∧
        r2.entity_ids.dense.length = r.entity_ids.dense.length + n := by
  intro n
  induction n with
  | zero =>
    intro r hwf hf hl
    exact ⟨r, rfl, hwf, hf, rfl, rfl⟩
  | succ n ih =>
    intro r hwf hf hl
    obtain ⟨r1, hok⟩ := create_entity_fresh_ok hwf hf (by omega) hM
    obtain ⟨hwf1, hD1, _, _, _, hnone⟩ := create_entity_ok_spec hwf hok
    obtain ⟨_, hfree1, hlast1⟩ := hnone (by rw [hf]; rfl)
    obtain ⟨r2, hr2, h2, h3, h4, h5⟩ := ih r1 hwf1 hfree1 (by omega)
    refine ⟨r2, ?_, h2, h3, by omega, ?_⟩
    · show createN M (n + 1) r = some r2
      rw [createN]
      simp only [hok]
      exact hr2
    · rw [h5, hD1]
      simp only [List.length_append, List.length_cons, List.length_nil]
      omega

theorem resolve_storages_none_iff {α : Type} (r : Reg α) :
    ∀ rest : List Nat, resolve_storages r rest = none ↔
      ∃ f ∈ rest, r.find_storage f = none := by
  intro rest
  induction rest with
  | nil => simp [resolve_storages]
  | cons f tl ih =>
    rw [resolve_storages]
    cases hfs : r.find_storage f with
    | none =>
      simp only [hfs]
      constructor
      · intro _
        exact ⟨f, List.mem_cons_self _ _, hfs⟩
      · intro _
        trivial
    | some st =>
      simp only [hfs]
      constructor
      · intro h
        cases hr : resolve_storages r tl with
        | none =>
          obtain ⟨f2, hf2, hn⟩ := ih.mp hr
          exact ⟨f2, List.mem_cons_of_mem _ hf2, hn⟩
        | some tlss =>
          rw [hr] at h
          cases h
      · rintro ⟨f2, hf2, hn⟩
        rcases List.mem_cons.mp hf2 with rfl | hf2
        · rw [hfs] at hn
          cases hn
        · rw [ih.mpr ⟨f2, hf2, hn⟩]
          rfl

theorem resolve_storages_some_forall {α : Type} {r : Reg α} :
    ∀ {rest : List Nat} {ss : List (SparseMap α)},
      resolve_storages r rest = some ss →
      List.Forall₂ (fun f st => r.find_storage f = some st) rest ss := by
  intro rest
  induction rest with
  | nil =>
    intro ss h
    obtain rfl := Option.some.inj h
    exact List.Forall₂.nil
  | cons f tl ih =>
    intro ss h
    rw [resolve_storages] at h
    cases hfs : r.find_storage f with
    | none =>
      simp only [hfs] at h
      exact Option.noConfusion h
    | some st =>
      simp only [hfs] at h
      cases hr : resolve_storages r tl with
      | none =>
        rw [hr] at h
        cases h
      | some tlss =>
        rw [hr] at h
        simp only [Option.map_some'] at h
        obtain rfl := Option.some.inj h
        exact List.Forall₂.cons hfs (ih hr)

theorem probe_tail_some_forall {α : Type} {ix : Nat → Nat} {e : Nat} :
    ∀ {ss : List (SparseMap α)} {vs : List α},
      probe_tail ix ss e = some vs →
      List.Forall₂ (fun st v => st.find ix e = some v) ss vs := by
  intro ss
  induction ss with
  | nil =>
    intro vs h
    obtain rfl := Option.some.inj h
    exact List.Forall₂.nil
  | cons st tl ih =>
    intro vs h
    rw [probe_tail] at h
    cases hf : st.find ix e with
    | none =>
      simp only [hf] at h
      exact Option.noConfusion h
    | some v =>
      simp only [hf] at h
      cases hp : probe_tail ix tl e with
      | none =>
        rw [hp] at h
        cases h
      | some tlvs =>
        rw [hp] at h
        simp only [Option.map_some'] at h
        obtain rfl := Option.some.inj h
        exact List.Forall₂.cons hf (ih hp)

theorem probe_tail_isSome_of {α : Type} {ix : Nat → Nat} {e : Nat} :
    ∀ {ss : List (SparseMap α)},
      (∀ st ∈ ss, (st.find ix e).isSome = true) →
      (probe_tail ix ss e).isSome = true := by
  intro ss
  induction ss with
  | nil =>
    intro _
    rfl
  | cons st tl ih =>
    intro h
    rw [probe_tail]
    have h1 := h st (List.mem_cons_self _ _)
    cases hf : st.find ix e with
    | none =>
      rw [hf] at h1
      cases h1
    | some v =>
      have h2 := ih (fun q hq => h q (List.mem_cons_of_mem _ hq))
      cases hp : probe_tail ix tl e with
      | none =>
        rw [hp] at h2
        cases h2
      | some tlvs =>
        simp only [hp, Option.map_some']
        rfl

end Reg

namespace SparseMap

theorem find_of_mem_zip {α : Type} {ix : Nat → Nat} {M : Nat}
    {m : SparseMap α} (hwf : WF ix M m) {k : Nat} {v : α}
    (h : (k, v) ∈ List.zip m.keys.dense m.values) : m.find ix k = some v := by
  obtain ⟨i, hi, hz⟩ := List.mem_iff_getElem.mp h
  have hz2 : (List.zip m.keys.dense m.values)[i]? = some (k, v) := by
    rw [List.getElem?_eq_getElem hi, hz]
  obtain ⟨hk, hv⟩ := List.getElem?_zip_eq_some.mp hz2
  obtain ⟨hilt, hkeq⟩ := List.getElem?_eq_some.mp hk
  have hkD : m.keys.dense.getD i 0 = k := by
    rw [SparseSet.getD_eq_getElem hilt, hkeq]
  obtain ⟨hb1, hb2⟩ := hwf.1.2 i hilt
  rw [hkD] at hb1 hb2
  have hhas : m.keys.has ix k = true :=
    SparseSet.has_of ix hb1 (by rw [hb2]; exact hilt) (by rw [hb2, hkD])
  rw [find, SparseSet.find_dense_index_of_has hhas]
  show m.values[m.keys.sparse.getD (ix k) 0]? = some v
  rw [hb2]
  exact hv

theorem mem_zip_of_key {α : Type} {ix : Nat → Nat} {M : Nat}
    {m : SparseMap α} (hwf : WF ix M m) {k : Nat}
    (h : k ∈ m.keys.dense) :
    ∃ v, (k, v) ∈ List.zip m.keys.dense m.values := by
  obtain ⟨i, hi, hik⟩ := List.mem_iff_getElem.mp h
  have hiv : i < m.values.length := by
    rw [hwf.2]
    exact hi
  refine ⟨m.values[i], List.getElem?_mem (n := i) ?_⟩
  rw [List.getElem?_zip_eq_some]
  exact ⟨by rw [List.getElem?_eq_getElem hi, hik],
    List.getElem?_eq_getElem hiv⟩

end SparseMap

theorem foldl_emit_eq_filterMap {β γ : Type} (g : β → Option γ)
    (F : List γ → β → List γ)
    (hF : ∀ a x, F a x = match g x with
      | some y => a ++ [y]
      | none => a) :
    ∀ (l : List β) (acc : List γ),
      l.foldl F acc = acc ++ l.filterMap g := by
  intro l
  induction l with
  | nil =>
    intro acc
    simp
  | cons x tl ih =>
    intro acc
    rw [List.foldl_cons, hF acc x]
    cases hg : g x with
    | none =>
      simp only [hg, List.filterMap_cons]
      exact ih acc
    | some y =>
      simp only [hg, List.filterMap_cons]
      rw [ih (acc ++ [y])]
      simp

/-- The `for_each_entity` accumulation is a filter of the dense array. -/
theorem foldl_filter_eq {β : Type} (p : β → Bool) :
    ∀ (l : List β) (acc : List β),
      l.foldl (fun acc2 e => if p e then acc2 ++ [e] else acc2) acc
        = acc ++ l.filter p := by
  intro l
  induction l with
  | nil =>
    intro acc
    simp
  | cons x tl ih =>
    intro acc
    rw [List.foldl_cons]
    by_cases hp : p x
    · rw [if_pos hp, ih]
      simp [List.filter_cons, hp]
    · rw [if_neg hp, ih]
      simp [List.filter_cons, hp]

/-- In a duplicate-free list each element is counted once, absentees zero
times. -/
theorem countP_eq_of_nodup (e : Nat) :
    ∀ l : List Nat, l.Nodup →
      l.countP (fun x => decide (x = e)) = if e ∈ l then 1 else 0 := by
  intro l
  induction l with
  | nil =>
    intro _
    simp
  | cons x tl ih =>
    intro hnd
    rw [List.nodup_cons] at hnd
    obtain ⟨hx, hnd2⟩ := hnd
    rw [List.countP_cons, ih hnd2]
    by_cases hxe : x = e
    · subst hxe
      rw [if_neg hx, decide_eq_true rfl, if_pos (List.mem_cons_self x tl)]
      rfl
    · rw [decide_eq_false hxe]
      by_cases hm : e ∈ tl
      · rw [if_pos hm, if_pos (List.mem_cons_of_mem x hm)]
        rfl
      · have hne : e ∉ x :: tl := by
          rw [List.mem_cons]
          rintro (rfl | h)
          · exact hxe rfl
          · exact hm h
        rw [if_neg hm, if_neg hne]
        rfl

theorem countP_filterMap_key {β γ : Type} (g : β → Option γ)
    (key : β → Nat) (keyg : γ → Nat)
    (hkey : ∀ x y, g x = some y → keyg y = key x) (e : Nat) :
    ∀ l : List β, (l.map key).Nodup →
      (l.filterMap g).countP (fun y => decide (keyg y = e))
        = if l.any (fun x => decide (key x = e) && (g x).isSome) = true
          then 1 else 0 := by
  intro l
  induction l with
  | nil =>
    intro _
    simp
  | cons x tl ih =>
    intro hnd
    rw [List.map_cons, List.nodup_cons] at hnd
    obtain ⟨hnx, hnd2⟩ := hnd
    rw [List.any_cons]
    cases hg : g x with
    | none =>
      simp only [List.filterMap_cons, hg, Option.isSome_none,
        Bool.and_false, Bool.false_or]
      exact ih hnd2
    | some y =>
      simp only [List.filterMap_cons, hg, Option.isSome_some,
        Bool.and_true]
      rw [List.countP_cons]
      by_cases hk : key x = e
      · have hky : keyg y = e := by
          rw [hkey x y hg, hk]
        have h0 : (tl.filterMap g).countP (fun y2 => decide (keyg y2 = e))
            = 0 := by
          rw [List.countP_eq_zero]
          intro y2 hy2
          obtain ⟨x2, hx2, hg2⟩ := List.mem_filterMap.mp hy2
          rw [decide_eq_true_eq, hkey x2 y2 hg2]
          intro he
          exact hnx (by rw [hk, ← he]; exact List.mem_map_of_mem _ hx2)
        rw [h0, decide_eq_true hky, if_pos rfl, decide_eq_true hk]
        simp
      · have hky : ¬ keyg y = e := by
          rw [hkey x y hg]
          exact hk
        rw [decide_eq_false hky, if_neg (by simp), decide_eq_false hk]
        simp only [Bool.false_or, Nat.add_zero]
        exact ih hnd2

namespace Reg

theorem joined_emit_eq_some {α : Type} {ss : List (SparseMap α)}
    {opt : Nat → Bool} {p : Nat × α} {x : Nat × α × List α}
    (h : joined_emit ss opt p = some x) :
    ∃ vs, opt p.1 = true ∧ probe_tail entity_id_indexer ss p.1 = some vs ∧
      x = (p.1, p.2, vs) := by
  rw [joined_emit] at h
  by_cases ho : opt p.1
  · rw [if_pos ho] at h
    obtain ⟨vs, hvs, rfl⟩ := Option.map_eq_some'.mp h
    exact ⟨vs, ho, hvs, rfl⟩
  · rw [if_neg ho] at h
    cases h

theorem joined_emit_isSome {α : Type} {ss : List (SparseMap α)}
    {opt : Nat → Bool} {p : Nat × α} :
    (joined_emit ss opt p).isSome = true ↔
      opt p.1 = true ∧ (probe_tail entity_id_indexer ss p.1).isSome = true := by
  rw [joined_emit]
  by_cases ho : opt p.1
  · rw [if_pos ho]
    simp [ho]
  · rw [if_neg ho]
    simp [ho]

theorem for_joined_eq_filterMap {α : Type} (r : Reg α) (t1 : Nat)
    (rest : List Nat) (opt : Nat → Bool) {ss : List (SparseMap α)}
    {drv : SparseMap α} (hres : resolve_storages r rest = some ss)
    (hdrv : r.find_storage t1 = some drv) :
    for_joined_components r t1 rest opt
      = (List.zip drv.keys.dense drv.values).filterMap
          (joined_emit ss opt) := by
  rw [for_joined_components]
  simp only [hres, hdrv]
  refine (foldl_emit_eq_filterMap (joined_emit ss opt)
    _ ?_ (List.zip drv.keys.dense drv.values) []).trans (List.nil_append _)
  intro a p
  rw [joined_emit]
  by_cases ho : opt p.1
  · simp only [ho, if_true]
    cases probe_tail entity_id_indexer ss p.1 <;> rfl
  · simp only [ho]
    rfl

/-- Every storage the registry hands out is well-formed and holds only live
entities (the storage half of the registry invariant). -/
theorem find_storage_WF {α : Type} {M : Nat} {r : Reg α}
    (hwf : RWF M r) {f : Nat} {st : SparseMap α}
    (h : r.find_storage f = some st) :
    SparseMap.WF entity_id_indexer M st :=
  (hwf.2.2.2.2.2.2.2 _ (mem_of_lookup_eq_some h)).1

/-- The tail probe succeeds exactly when the entity has a component of every
tail family: `tuple_contains_nullptr` resolved the storages already, and the
per-storage lookups mirror `exists_component`. -/
theorem exists_component_iff_probe {α : Type} {M : Nat} {r : Reg α}
    (hwf : RWF M r) {rest : List Nat} {ss : List (SparseMap α)}
    (hres : resolve_storages r rest = some ss) (e : Nat) :
    (probe_tail entity_id_indexer ss e).isSome = true ↔
      ∀ f ∈ rest, exists_component r f e = true := by
  have h1 := resolve_storages_some_forall hres
  obtain ⟨hl, hg⟩ := List.forall₂_iff_get.mp h1
  constructor
  · intro h f hf
    obtain ⟨⟨j, hj⟩, rfl⟩ := List.mem_iff_get.mp hf
    have hjss : j < ss.length := by omega
    have hs : find_storage r (rest.get ⟨j, hj⟩) = some (ss.get ⟨j, hjss⟩) :=
      hg j hj hjss
    have hwfj := find_storage_WF hwf hs
    obtain ⟨vs, hvs⟩ := Option.isSome_iff_exists.mp h
    have h2 := probe_tail_some_forall hvs
    obtain ⟨hl2, hg2⟩ := List.forall₂_iff_get.mp h2
    have hjvs : j < vs.length := by omega
    have hv : SparseMap.find entity_id_indexer (ss.get ⟨j, hjss⟩) e
        = some (vs.get ⟨j, hjvs⟩) := hg2 j hjss hjvs
    have hsome : (SparseMap.find entity_id_indexer
        (ss.get ⟨j, hjss⟩) e).isSome = true := by
      rw [hv]
      rfl
    rw [SparseMap.find_isSome_iff hwfj] at hsome
    rw [exists_component]
    simp only [hs]
    exact hsome
  · intro h
    refine probe_tail_isSome_of ?_
    intro st hst
    obtain ⟨⟨j, hj⟩, rfl⟩ := List.mem_iff_get.mp hst
    have hjr : j < rest.length := by omega
    have hs : find_storage r (rest.get ⟨j, hjr⟩) = some (ss.get ⟨j, hj⟩) :=
      hg j hjr hj
    have hwfj := find_storage_WF hwf hs
    have he := h _ (List.get_mem rest j hjr)
    rw [exists_component] at he
    simp only [hs] at he
    rw [SparseMap.find_isSome_iff hwfj]
    exact he

theorem find_component_congr {α : Type} {r1 r2 : Reg α} {f : Nat}
    (h : find_storage r2 f = find_storage r1 f) (e : Nat) :
    find_component r2 f e = find_component r1 f e := by
  rw [find_component, find_component, h]

theorem exists_component_congr {α : Type} {r1 r2 : Reg α} {f : Nat}
    (h : find_storage r2 f = find_storage r1 f) (e : Nat) :
    exists_component r2 f e = exists_component r1 f e := by
  rw [exists_component, exists_component, h]

/-- The inductive core of C8: the applier fold preserves the invariant and
liveness, realizes the `override`-gated per-family semantics, and leaves
families outside the prototype untouched. -/
theorem apply_to_entity_go {α : Type} {M : Nat} {e : Nat} :
    ∀ (p : List (Nat × α)) (ov : Bool) (r r2 : Reg α),
      RWF M r → valid_entity r e = true →
      (p.map Prod.fst).Nodup →
      apply_to_entity M p ov e r = some r2 →
      RWF M r2 ∧ valid_entity r2 e = true ∧
      (∀ f v, (f, v) ∈ p →
        (ov = true → find_component r2 f e = some v) ∧
        (ov = false → exists_component r f e = true →
          find_component r2 f e = find_component r f e) ∧
        (ov = false → exists_component r f e = false →
          find_component r2 f e = some v)) ∧
      (∀ f, f ∉ p.map Prod.fst →
        find_storage r2 f = find_storage r f) := by
  intro p
  induction p with
  | nil =>
    intro ov r r2 hwf hval _ h
    rw [apply_to_entity] at h
    obtain rfl := Option.some.inj h
    exact ⟨hwf, hval, fun f v hm => absurd hm (List.not_mem_nil _),
      fun f _ => rfl⟩
  | cons x rest ih =>
    obtain ⟨f, v⟩ := x
    intro ov r r2 hwf hval hnd h
    rw [List.map_cons, List.nodup_cons] at hnd
    obtain ⟨hfk, hnd2⟩ := hnd
    rw [apply_to_entity] at h
    cases hmid : applier_apply M f v ov e r with
    | none =>
      simp only [hmid] at h
      exact Option.noConfusion h
    | some rmid =>
      simp only [hmid] at h
      have hcase := hmid
      rw [applier_apply] at hcase
      by_cases hcond : (ov || !(exists_component r f e)) = true
      · rw [if_pos hcond] at hcase
        obtain ⟨hwf2, hfind, hex, hids, -, -, -, hothers⟩ :=
          assign_component_spec hwf hval hcase
        have hval2 : valid_entity rmid e = true := by
          rw [valid_entity, hids]
          exact hval
        obtain ⟨hwf3, hval3, hmemp, hkeep⟩ :=
          ih ov rmid r2 hwf2 hval2 hnd2 h
        have hfr2 : find_component r2 f e = find_component rmid f e :=
          find_component_congr (hkeep f hfk) e
        refine ⟨hwf3, hval3, ?_, ?_⟩
        · intro f2 v2 hm
          rcases List.mem_cons.mp hm with heq | hm2
          · simp only [Prod.mk.injEq] at heq
            obtain ⟨rfl, rfl⟩ := heq
            refine ⟨fun _ => hfr2.trans hfind, ?_, fun _ _ => hfr2.trans hfind⟩
            intro hov hex1
            rw [hov, hex1] at hcond
            simp at hcond
          · have hf2ne : f2 ≠ f := by
              rintro rfl
              have hmm : f2 ∈ List.map Prod.fst rest :=
                List.mem_map_of_mem Prod.fst hm2
              exact hfk hmm
            have hstor : find_storage rmid f2 = find_storage r f2 :=
              hothers f2 hf2ne
            obtain ⟨himp1, himp2, himp3⟩ := hmemp f2 v2 hm2
            refine ⟨himp1, ?_, ?_⟩
            · intro hov hex1
              rw [himp2 hov (by
                  rw [exists_component_congr hstor e]
                  exact hex1)]
              exact find_component_congr hstor e
            · intro hov hex0
              exact himp3 hov (by
                rw [exists_component_congr hstor e]
                exact hex0)
        · intro f3 hf3
          rw [List.map_cons] at hf3
          have h1 : f3 ≠ f := by
            rintro rfl
            exact hf3 (List.mem_cons_self _ _)
          have h2 : f3 ∉ rest.map Prod.fst :=
            fun hm => hf3 (List.mem_cons_of_mem _ hm)
          rw [hkeep f3 h2, hothers f3 h1]
      · rw [if_neg hcond] at hcase
        obtain rfl := Option.some.inj hcase
        have hov0 : ov = false := by
          cases hov : ov
          · rfl
          · rw [hov, Bool.true_or] at hcond
            exact absurd rfl hcond
        have hex1 : exists_component r f e = true := by
          cases hex : exists_component r f e
          · rw [hov0, hex, Bool.false_or] at hcond
            exact absurd rfl hcond
          · rfl
        subst hov0
        obtain ⟨hwf3, hval3, hmemp, hkeep⟩ :=
          ih false r r2 hwf hval hnd2 h
        refine ⟨hwf3, hval3, ?_, ?_⟩
        · intro f2 v2 hm
          rcases List.mem_cons.mp hm with heq | hm2
          · simp only [Prod.mk.injEq] at heq
            obtain ⟨rfl, rfl⟩ := heq
            refine ⟨fun hov => Bool.noConfusion hov, ?_, ?_⟩
            · intro _ _
              exact find_component_congr (hkeep _ hfk) e
            · intro _ hex0
              rw [hex0] at hex1
              exact Bool.noConfusion hex1
          · exact hmemp f2 v2 hm2
        · intro f3 hf3
          rw [List.map_cons] at hf3
          exact hkeep f3 (fun hm => hf3 (List.mem_cons_of_mem _ hm))

end Reg

namespace Feature

theorem fire_event_aux (t : EvType) :
    ∀ (l : List MSys) (acc : List (Nat × EvType)),
      l.foldl
          (fun acc2 s => if s.handles t then acc2 ++ [(s.sid, t)] else acc2)
          acc
        = acc ++ (l.filter (fun s => s.handles t)).map
            (fun s => (s.sid, t)) := by
  intro l
  induction l with
  | nil =>
    intro acc
    simp
  | cons x tl ih =>
    intro acc
    rw [List.foldl_cons]
    by_cases hp : x.handles t
    · rw [if_pos hp, ih]
      simp [List.filter_cons, hp]
    · rw [if_neg hp, ih]
      simp [List.filter_cons, hp]

/-- One phase dispatch is the insertion-ordered map over the implementing
systems. -/
theorem fire_event_eq (systems : List MSys) (t : EvType) :
    fire_event systems t
      = (systems.filter (fun s => s.handles t)).map (fun s => (s.sid, t)) :=
  (fire_event_aux t systems []).trans (List.nil_append _)

end Feature

/-- C4: for every destroyed entity handle `e`, `valid_entity e` returns
false — both right after `destroy_entity` and for as long as `e` sits on the
free list — and it remains false after the index slot of `e` is reused by a
later `create_entity`: the reissued id carries an incremented version while
the liveness lookup is keyed by the id's index field only
(`entity_id_indexer`), so the stale id never matches the new live id. -/
theorem valid_entity_destroyed_spec {α : Type} [Inhabited α] {M : Nat}
    {r : Reg α} (hwf : Reg.RWF M r) (e : Nat) :
    (Reg.valid_entity r e = true →
      Reg.valid_entity (Reg.destroy_entity r e) e = false) ∧
    (e ∈ r.free_entity_ids → Reg.valid_entity r e = false) ∧
    (∀ r2 id, r.free_entity_ids.getLast? = some e →
      Reg.create_entity M r = .ok (r2, id) →
      id = upgrade_entity_id e ∧ id ≠ e ∧
      Reg.valid_entity r2 e = false) := by
  refine ⟨?_, ?_, ?_⟩
  · intro hv
    exact ((Reg.destroy_entity_spec hwf).2.1 hv).2.1
  · intro hm
    exact Reg.valid_entity_false_of_mem_free hwf hm
  · intro r2 id hl hok
    have hmem : e ∈ r.free_entity_ids := List.mem_of_getLast?_eq_some hl
    have hvf := Reg.valid_entity_false_of_mem_free hwf hmem
    obtain ⟨hwf2, hD2, _, _, hsome, _⟩ := Reg.create_entity_ok_spec hwf hok
    obtain ⟨rfl, _, _⟩ := hsome e hl
    have helt : e < 2 ^ 32 := (hwf.2.2.1 e hmem).2.2
    have hne := upgrade_entity_id_ne e helt
    refine ⟨rfl, hne, ?_⟩
    by_cases hb : Reg.valid_entity r2 e = true
    · have hm2 := (SparseSet.has_iff_mem hwf2.1 e).mp hb
      rw [hD2] at hm2
      rcases List.mem_append.mp hm2 with hm2 | hm2
      · have hvt : Reg.valid_entity r e = true :=
          (SparseSet.has_iff_mem hwf.1 e).mpr hm2
        rw [hvt] at hvf
        cases hvf
      · exact absurd (List.mem_singleton.mp hm2).symm hne
    · exact Bool.eq_false_of_ne_true hb

/-- Witness for C4: a one-slot registry; entity 1 is created, destroyed, its
slot reused by id 4194305 = upgrade 1; the stale handle 1 stays invalid. -/
theorem valid_entity_destroyed_witness :
    Reg.valid_entity
      (Reg.destroy_entity (⟨1, [], 1, ⟨[1], [0, 0]⟩, []⟩ : Reg Nat) 1) 1
        = false ∧
    Reg.valid_entity (⟨1, [1], 1, ⟨[], [0, 0]⟩, []⟩ : Reg Nat) 1 = false ∧
    (4194305 = upgrade_entity_id 1 ∧ (4194305 : Nat) ≠ 1 ∧
      Reg.valid_entity (⟨1, [], 1, ⟨[4194305], [0, 0]⟩, []⟩ : Reg Nat) 1
        = false) :=
  ⟨(valid_entity_destroyed_spec (M := 64)
      (r := ⟨1, [], 1, ⟨[1], [0, 0]⟩, []⟩) (by decide) 1).1 (by decide),
   (valid_entity_destroyed_spec (M := 64)
      (r := ⟨1, [1], 1, ⟨[], [0, 0]⟩, []⟩) (by decide) 1).2.1 (by decide),
   (valid_entity_destroyed_spec (M := 64)
      (r := ⟨1, [1], 1, ⟨[], [0, 0]⟩, []⟩) (by decide) 1).2.2
     ⟨1, [], 1, ⟨[4194305], [0, 0]⟩, []⟩ 4194305 rfl rfl⟩

/-- C5: `create_entity` throws the logic error (entity index overflow) if
and only if the free-id list is empty and `last_entity_id_` has reached
`index_mask = 2 ^ 22 - 1`; in particular, after creating `2 ^ 22 - 1`
entities from a fresh registry with no intervening destroys, the next call
fails with that error — thrown before any mutation, so the live entity set
(of size `2 ^ 22 - 1`) is unchanged. -/
theorem create_entity_overflow_spec {α : Type} (M : Nat)
    (hM : 2 ^ 22 ≤ M) :
    (∀ r : Reg α, Reg.create_entity M r = .error .indexOverflow ↔
        (r.free_entity_ids = [] ∧
         entity_id_index_mask ≤ r.last_entity_id)) ∧
    (∃ r : Reg α, Reg.createN M (2 ^ 22 - 1) Reg.mk0 = some r ∧
      Reg.create_entity M r = .error .indexOverflow ∧
      r.entity_ids.dense.length = 2 ^ 22 - 1) := by
  refine ⟨fun r => Reg.create_entity_overflow_iff M r, ?_⟩
  obtain ⟨r2, h1, h2, h3, h4, h5⟩ := Reg.createN_fresh hM (2 ^ 22 - 1)
    Reg.mk0 (Reg.RWF_mk0 M) rfl
    (by simp [Reg.mk0, entity_id_index_mask_eq])
  refine ⟨r2, h1, ?_, ?_⟩
  · rw [Reg.create_entity_overflow_iff]
    refine ⟨h3, ?_⟩
    rw [h4, entity_id_index_mask_eq]
    simp [Reg.mk0]
  · rw [h5]
    simp [Reg.mk0, SparseSet.mk0]

/-- Witness for C5 at `M = 2 ^ 32` (the `std::vector` max size collapsed to
a concrete bound) and `α = Nat`. -/
theorem create_entity_overflow_witness :
    (∀ r : Reg Nat, Reg.create_entity 4294967296 r = .error .indexOverflow ↔
        (r.free_entity_ids = [] ∧
         entity_id_index_mask ≤ r.last_entity_id)) ∧
    (∃ r : Reg Nat, Reg.createN 4294967296 (2 ^ 22 - 1) Reg.mk0 = some r ∧
      Reg.create_entity 4294967296 r = .error .indexOverflow ∧
      r.entity_ids.dense.length = 2 ^ 22 - 1) :=
  create_entity_overflow_spec 4294967296 (by norm_num)

/-- C6: in every registry state reachable by `create_entity` and
`destroy_entity` sequences, the free-id list's capacity is at least the
live entity count, and at least its own size plus the live count; hence
whenever a live entity exists (the only case in which `destroy_entity`
pushes), the free list's size is strictly below its capacity, so the push
never reallocates and `destroy_entity` never allocates. -/
theorem free_capacity_budget_spec {α : Type} [Inhabited α] {M : Nat}
    {r : Reg α} (hr : Reg.Reach M r) :
    r.entity_ids.dense.length ≤ r.free_capacity ∧
    r.free_entity_ids.length + r.entity_ids.dense.length
      ≤ r.free_capacity ∧
    (∀ e, Reg.valid_entity r e = true →
      r.free_entity_ids.length < r.free_capacity) := by
  have hwf := Reg.Reach_RWF hr
  have hbud := hwf.2.2.2.2.2.1
  refine ⟨by omega, hbud, ?_⟩
  intro e hv
  have hmem := (SparseSet.has_iff_mem hwf.1 e).mp hv
  have hpos : 0 < r.entity_ids.dense.length :=
    List.length_pos.mpr (fun h0 => by rw [h0] at hmem; cases hmem)
  omega

/-- Witness for C6: the reachable state after one `create_entity` from a
fresh registry (capacity 1, one live entity, empty free list). -/
theorem free_capacity_budget_witness :
    (⟨1, [], 1, ⟨[1], [0, 0]⟩, []⟩ : Reg Nat).entity_ids.dense.length
      ≤ (⟨1, [], 1, ⟨[1], [0, 0]⟩, []⟩ : Reg Nat).free_capacity ∧
    (⟨1, [], 1, ⟨[1], [0, 0]⟩, []⟩ : Reg Nat).free_entity_ids.length
        + (⟨1, [], 1, ⟨[1], [0, 0]⟩, []⟩ : Reg Nat).entity_ids.dense.length
      ≤ (⟨1, [], 1, ⟨[1], [0, 0]⟩, []⟩ : Reg Nat).free_capacity ∧
    (∀ e, Reg.valid_entity (⟨1, [], 1, ⟨[1], [0, 0]⟩, []⟩ : Reg Nat) e = true →
      (⟨1, [], 1, ⟨[1], [0, 0]⟩, []⟩ : Reg Nat).free_entity_ids.length
        < (⟨1, [], 1, ⟨[1], [0, 0]⟩, []⟩ : Reg Nat).free_capacity) :=
  free_capacity_budget_spec (M := 64)
    (Reg.Reach.create Reg.Reach.init rfl)

/-- C9: for every invalid entity handle (destroyed or never live),
`find_component` and `exists_component` do not fail: find returns absent
(`nullptr`, here `none`) and exists returns `false`, whether or not a
storage for the family exists.  The handle types (`entity::find_component`
etc.) forward to these registry members directly. -/
theorem find_exists_invalid_spec {α : Type} {M : Nat} {r : Reg α}
    (hwf : Reg.RWF M r) {e : Nat}
    (hval : Reg.valid_entity r e = false) (f : Nat) :
    Reg.find_component r f e = none ∧ Reg.exists_component r f e = false :=
  Reg.find_component_invalid hwf hval f

/-- Witness for C9: the registry whose only entity was destroyed; both a
missing family (7) and the destroyed handle give "absent". -/
theorem find_exists_invalid_witness :
    Reg.find_component (⟨1, [1], 1, ⟨[], [0, 0]⟩, []⟩ : Reg Nat) 7 1 = none ∧
    Reg.exists_component (⟨1, [1], 1, ⟨[], [0, 0]⟩, []⟩ : Reg Nat) 7 1
      = false :=
  find_exists_invalid_spec (M := 64)
    (r := ⟨1, [1], 1, ⟨[], [0, 0]⟩, []⟩) (by decide) (by decide) 7

/-- C1: joined iteration visits each matching entity exactly once.  In a
well-formed registry, `for_joined_components` over driver family `t1` and
tail families `rest` under the option conjunction `opt` (i) invokes nothing
at all when a tail storage has never been created; (ii) mentions each entity
`e` exactly once when `e` has a component of every family and passes the
options, and never otherwise; and (iii) hands each invocation the entity
together with its stored component values. -/
theorem for_joined_components_spec {α : Type} {M : Nat} {r : Reg α}
    (hwf : Reg.RWF M r) (t1 : Nat) (rest : List Nat) (opt : Nat → Bool) :
    ((∃ f ∈ rest, Reg.find_storage r f = none) →
        Reg.for_joined_components r t1 rest opt = []) ∧
    (∀ e, (Reg.for_joined_components r t1 rest opt).countP
        (fun x => decide (x.1 = e))
      = if Reg.exists_component r t1 e = true ∧
           (∀ f ∈ rest, Reg.exists_component r f e = true) ∧ opt e = true
        then 1 else 0) ∧
    (∀ x ∈ Reg.for_joined_components r t1 rest opt,
        Reg.find_component r t1 x.1 = some x.2.1 ∧ opt x.1 = true ∧
        List.Forall₂ (fun f v => Reg.find_component r f x.1 = some v)
          rest x.2.2) := by
  refine ⟨?_, ?_, ?_⟩
  · rintro ⟨f, hf, hn⟩
    have h0 : Reg.resolve_storages r rest = none :=
      (Reg.resolve_storages_none_iff r rest).mpr ⟨f, hf, hn⟩
    rw [Reg.for_joined_components]
    simp only [h0]
  · intro e
    cases hres : Reg.resolve_storages r rest with
    | none =>
      obtain ⟨f, hf, hn⟩ := (Reg.resolve_storages_none_iff r rest).mp hres
      have hfe : Reg.exists_component r f e = false := by
        rw [Reg.exists_component]
        simp only [hn]
      have hcond : ¬(Reg.exists_component r t1 e = true ∧
          (∀ f2 ∈ rest, Reg.exists_component r f2 e = true) ∧
          opt e = true) := by
        rintro ⟨-, hall, -⟩
        rw [hall f hf] at hfe
        cases hfe
      rw [Reg.for_joined_components]
      simp only [hres, List.countP_nil]
      rw [if_neg hcond]
    | some ss =>
      cases hdrv : Reg.find_storage r t1 with
      | none =>
        have ht1 : Reg.exists_component r t1 e = false := by
          rw [Reg.exists_component]
          simp only [hdrv]
        have hcond : ¬(Reg.exists_component r t1 e = true ∧
            (∀ f2 ∈ rest, Reg.exists_component r f2 e = true) ∧
            opt e = true) := by
          rintro ⟨h1, -, -⟩
          rw [ht1] at h1
          cases h1
        rw [Reg.for_joined_components]
        simp only [hres, hdrv, List.countP_nil]
        rw [if_neg hcond]
      | some drv =>
        have hjoin := Reg.for_joined_eq_filterMap r t1 rest opt hres hdrv
        have hdwf := Reg.find_storage_WF hwf hdrv
        have hvlen : drv.values.length = drv.keys.dense.length := hdwf.2
        have hnd :
            ((List.zip drv.keys.dense drv.values).map Prod.fst).Nodup := by
          rw [List.map_fst_zip _ _ (le_of_eq hvlen.symm)]
          exact SparseSet.nodup_dense hdwf.1
        have hcount := countP_filterMap_key (Reg.joined_emit ss opt)
          Prod.fst Prod.fst
          (fun p y hg => by
            obtain ⟨vs, h1, h2, h3⟩ := Reg.joined_emit_eq_some hg
            rw [h3])
          e (List.zip drv.keys.dense drv.values) hnd
        rw [hjoin, hcount]
        have hiff : (List.zip drv.keys.dense drv.values).any
            (fun x => decide (Prod.fst x = e) &&
              (Reg.joined_emit ss opt x).isSome) = true ↔
            (Reg.exists_component r t1 e = true ∧
             (∀ f ∈ rest, Reg.exists_component r f e = true) ∧
             opt e = true) := by
          constructor
          · intro h
            obtain ⟨p, hp, hpe⟩ := List.any_eq_true.mp h
            obtain ⟨a, b⟩ := p
            rw [Bool.and_eq_true, decide_eq_true_eq] at hpe
            obtain ⟨rfl, hsome⟩ := hpe
            obtain ⟨ho, hpr⟩ := Reg.joined_emit_isSome.mp hsome
            refine ⟨?_, (Reg.exists_component_iff_probe hwf hres _).mp hpr,
              ho⟩
            rw [Reg.exists_component]
            simp only [hdrv]
            exact (SparseSet.has_iff_mem hdwf.1 _).mpr
              (List.of_mem_zip hp).1
          · rintro ⟨h1, h2, h3⟩
            have hhas : drv.keys.has entity_id_indexer e = true := by
              rw [Reg.exists_component] at h1
              simp only [hdrv] at h1
              exact h1
            obtain ⟨v, hv⟩ := SparseMap.mem_zip_of_key hdwf
              ((SparseSet.has_iff_mem hdwf.1 e).mp hhas)
            refine List.any_eq_true.mpr ⟨(e, v), hv, ?_⟩
            rw [Bool.and_eq_true, decide_eq_true_eq]
            exact ⟨rfl, Reg.joined_emit_isSome.mpr
              ⟨h3, (Reg.exists_component_iff_probe hwf hres e).mpr h2⟩⟩
        by_cases hc : Reg.exists_component r t1 e = true ∧
            (∀ f ∈ rest, Reg.exists_component r f e = true) ∧ opt e = true
        · rw [if_pos (hiff.mpr hc), if_pos hc]
        · rw [if_neg (fun h => hc (hiff.mp h)), if_neg hc]
  · intro x hx
    cases hres : Reg.resolve_storages r rest with
    | none =>
      rw [Reg.for_joined_components] at hx
      simp only [hres] at hx
      exact absurd hx (List.not_mem_nil x)
    | some ss =>
      cases hdrv : Reg.find_storage r t1 with
      | none =>
        rw [Reg.for_joined_components] at hx
        simp only [hres, hdrv] at hx
        exact absurd hx (List.not_mem_nil x)
      | some drv =>
        have hdwf := Reg.find_storage_WF hwf hdrv
        rw [Reg.for_joined_eq_filterMap r t1 rest opt hres hdrv] at hx
        obtain ⟨p, hp, hg⟩ := List.mem_filterMap.mp hx
        obtain ⟨vs, ho, hpr, rfl⟩ := Reg.joined_emit_eq_some hg
        refine ⟨?_, ho, ?_⟩
        · rw [Reg.find_component]
          simp only [hdrv]
          exact SparseMap.find_of_mem_zip hdwf hp
        · have h1 := Reg.resolve_storages_some_forall hres
          have h2 := Reg.probe_tail_some_forall hpr
          obtain ⟨hl1, hg1⟩ := List.forall₂_iff_get.mp h1
          obtain ⟨hl2, hg2⟩ := List.forall₂_iff_get.mp h2
          dsimp only
          rw [List.forall₂_iff_get]
          refine ⟨by omega, ?_⟩
          intro i h3 h4
          have hiss : i < ss.length := by omega
          have hs : Reg.find_storage r (rest.get ⟨i, h3⟩)
              = some (ss.get ⟨i, hiss⟩) := hg1 i h3 hiss
          have hv : SparseMap.find entity_id_indexer (ss.get ⟨i, hiss⟩) p.1
              = some (vs.get ⟨i, h4⟩) := hg2 i hiss h4
          show Reg.find_component r (rest.get ⟨i, h3⟩) p.1
              = some (vs.get ⟨i, h4⟩)
          rw [Reg.find_component]
          simp only [hs]
          exact hv

/-- Witness for C1: joining families 1 and 2 over `rC1` with a trivial
option set. -/
theorem for_joined_components_spec_witness :
    ((∃ f ∈ ([2] : List Nat), Reg.find_storage rC1 f = none) →
        Reg.for_joined_components rC1 1 [2] (fun _ => true) = []) ∧
    (∀ e, (Reg.for_joined_components rC1 1 [2] (fun _ => true)).countP
        (fun x => decide (x.1 = e))
      = if Reg.exists_component rC1 1 e = true ∧
           (∀ f ∈ ([2] : List Nat), Reg.exists_component rC1 f e = true) ∧
           (fun _ : Nat => true) e = true
        then 1 else 0) ∧
    (∀ x ∈ Reg.for_joined_components rC1 1 [2] (fun _ => true),
        Reg.find_component rC1 1 x.1 = some x.2.1 ∧
        (fun _ : Nat => true) x.1 = true ∧
        List.Forall₂ (fun f v => Reg.find_component rC1 f x.1 = some v)
          [2] x.2.2) :=
  for_joined_components_spec (M := 64) (r := rC1) (by decide) 1 [2]
    (fun _ => true)

/-- C10: `for_joined_components` with an empty component type list is
`for_each_entity` — the specialization delegates verbatim — and in a
well-formed registry that trace names each live entity passing the option
conjunction exactly once, with no component arguments, and no other
entity. -/
theorem for_joined_nil_spec {α : Type} {M : Nat} {r : Reg α}
    (hwf : Reg.RWF M r) (opt : Nat → Bool) :
    Reg.for_joined_components_nil r opt = Reg.for_each_entity r opt ∧
    (∀ e, (Reg.for_joined_components_nil r opt).countP
        (fun x => decide (x = e))
      = if Reg.valid_entity r e = true ∧ opt e = true then 1 else 0) := by
  have hfe : Reg.for_each_entity r opt = r.entity_ids.dense.filter opt :=
    (foldl_filter_eq opt r.entity_ids.dense []).trans (List.nil_append _)
  refine ⟨rfl, ?_⟩
  intro e
  rw [Reg.for_joined_components_nil, hfe,
    countP_eq_of_nodup e _ (List.Nodup.filter _
      (SparseSet.nodup_dense hwf.1))]
  have hmem : e ∈ r.entity_ids.dense.filter opt ↔
      (Reg.valid_entity r e = true ∧ opt e = true) := by
    rw [List.mem_filter, Reg.valid_entity, SparseSet.has_iff_mem hwf.1]
  by_cases hc : Reg.valid_entity r e = true ∧ opt e = true
  · rw [if_pos (hmem.mpr hc), if_pos hc]
  · rw [if_neg (fun h => hc (hmem.mp h)), if_neg hc]

/-- Witness for C10: a registry with live entities 1 and 2 and no storages,
under the option rejecting entity 1. -/
theorem for_joined_nil_spec_witness :
    Reg.for_joined_components_nil
        (⟨2, [], 2, ⟨[1, 2], [0, 0, 1]⟩, []⟩ : Reg Nat)
        (fun e => decide (e ≠ 1))
      = Reg.for_each_entity
          (⟨2, [], 2, ⟨[1, 2], [0, 0, 1]⟩, []⟩ : Reg Nat)
          (fun e => decide (e ≠ 1)) ∧
    (∀ e, (Reg.for_joined_components_nil
        (⟨2, [], 2, ⟨[1, 2], [0, 0, 1]⟩, []⟩ : Reg Nat)
        (fun e => decide (e ≠ 1))).countP (fun x => decide (x = e))
      = if Reg.valid_entity
            (⟨2, [], 2, ⟨[1, 2], [0, 0, 1]⟩, []⟩ : Reg Nat) e = true ∧
           (fun e => decide (e ≠ 1)) e = true
        then 1 else 0) :=
  for_joined_nil_spec (M := 64)
    (r := ⟨2, [], 2, ⟨[1, 2], [0, 0, 1]⟩, []⟩) (by decide)
    (fun e => decide (e ≠ 1))

/-- C7: `process_event` dispatches in exactly three phases — `before<E>`,
then `E`, then `after<E>` — and within each phase invokes every
implementing system's handler in insertion order; with systems `s1`, `s2`
added in that order and both handling all three phases of `e`, the trace is
`[before.s1, before.s2, e.s1, e.s2, after.s1, after.s2]`. -/
theorem process_event_spec (systems : List Feature.MSys) (e : Nat)
    (s1 s2 : Feature.MSys)
    (h1 : s1.handles (Feature.EvType.before e) = true)
    (h2 : s1.handles (Feature.EvType.plain e) = true)
    (h3 : s1.handles (Feature.EvType.after e) = true)
    (h4 : s2.handles (Feature.EvType.before e) = true)
    (h5 : s2.handles (Feature.EvType.plain e) = true)
    (h6 : s2.handles (Feature.EvType.after e) = true) :
    (Feature.process_event systems e
      = ((systems.filter
            (fun s => s.handles (Feature.EvType.before e))).map
            (fun s => (s.sid, Feature.EvType.before e)))
        ++ ((systems.filter
            (fun s => s.handles (Feature.EvType.plain e))).map
            (fun s => (s.sid, Feature.EvType.plain e)))
        ++ ((systems.filter
            (fun s => s.handles (Feature.EvType.after e))).map
            (fun s => (s.sid, Feature.EvType.after e)))) ∧
    (Feature.process_event [s1, s2] e
      = [(s1.sid, Feature.EvType.before e), (s2.sid, Feature.EvType.before e),
         (s1.sid, Feature.EvType.plain e), (s2.sid, Feature.EvType.plain e),
         (s1.sid, Feature.EvType.after e),
         (s2.sid, Feature.EvType.after e)]) := by
  constructor
  · rw [Feature.process_event, Feature.fire_event_eq, Feature.fire_event_eq,
      Feature.fire_event_eq, List.append_assoc]
  · rw [Feature.process_event, Feature.fire_event_eq, Feature.fire_event_eq,
      Feature.fire_event_eq]
    simp [List.filter_cons, h1, h2, h3, h4, h5, h6]

/-- Witness for C7: two always-handling systems with ids 1 and 2 and the
event type 5; the trace runs the three phases over both systems in order. -/
theorem process_event_spec_witness :
    (Feature.process_event
        [⟨1, fun _ => true⟩, ⟨2, fun _ => true⟩] 5
      = ((([⟨1, fun _ => true⟩, ⟨2, fun _ => true⟩] :
            List Feature.MSys).filter
            (fun s => s.handles (Feature.EvType.before 5))).map
            (fun s => (s.sid, Feature.EvType.before 5)))
        ++ ((([⟨1, fun _ => true⟩, ⟨2, fun _ => true⟩] :
            List Feature.MSys).filter
            (fun s => s.handles (Feature.EvType.plain 5))).map
            (fun s => (s.sid, Feature.EvType.plain 5)))
        ++ ((([⟨1, fun _ => true⟩, ⟨2, fun _ => true⟩] :
            List Feature.MSys).filter
            (fun s => s.handles (Feature.EvType.after 5))).map
            (fun s => (s.sid, Feature.EvType.after 5)))) ∧
    (Feature.process_event
        [⟨1, fun _ => true⟩, ⟨2, fun _ => true⟩] 5
      = [(1, Feature.EvType.before 5), (2, Feature.EvType.before 5),
         (1, Feature.EvType.plain 5), (2, Feature.EvType.plain 5),
         (1, Feature.EvType.after 5), (2, Feature.EvType.after 5)]) :=
  process_event_spec [⟨1, fun _ => true⟩, ⟨2, fun _ => true⟩] 5
    ⟨1, fun _ => true⟩ ⟨2, fun _ => true⟩ rfl rfl rfl rfl rfl rfl

/-- C8: prototype application over a live entity.  With `override = false`
every component family already present on the entity keeps its value and the
prototype's absent families are constructed with the recorded values; with
`override = true` every recorded applier assigns its value; families outside
the prototype are untouched, and the registry invariant and the entity's
liveness survive. -/
theorem apply_to_entity_spec {α : Type} {M : Nat} {r : Reg α} {e : Nat}
    (hwf : Reg.RWF M r) (hval : Reg.valid_entity r e = true)
    (p : List (Nat × α)) (ov : Bool) (r2 : Reg α)
    (hnd : (p.map Prod.fst).Nodup)
    (h : Reg.apply_to_entity M p ov e r = some r2) :
    Reg.RWF M r2 ∧ Reg.valid_entity r2 e = true ∧
    (∀ f v, (f, v) ∈ p →
      (ov = true → Reg.find_component r2 f e = some v) ∧
      (ov = false → Reg.exists_component r f e = true →
        Reg.find_component r2 f e = Reg.find_component r f e) ∧
      (ov = false → Reg.exists_component r f e = false →
        Reg.find_component r2 f e = some v)) ∧
    (∀ f, f ∉ p.map Prod.fst →
      Reg.find_storage r2 f = Reg.find_storage r f) :=
  Reg.apply_to_entity_go p ov r r2 hwf hval hnd h

/-- Witness for C8: a one-entity registry whose entity already has a
family-1 component; applying the prototype `[(1, 99)]` without override
leaves the registry unchanged. -/
theorem apply_to_entity_spec_witness :
    Reg.RWF 64 (⟨1, [], 1, ⟨[1], [0, 0]⟩,
        [(1, ⟨⟨[1], [0, 0]⟩, [10]⟩)]⟩ : Reg Nat) ∧
    Reg.valid_entity (⟨1, [], 1, ⟨[1], [0, 0]⟩,
        [(1, ⟨⟨[1], [0, 0]⟩, [10]⟩)]⟩ : Reg Nat) 1 = true ∧
    (∀ f v, (f, v) ∈ ([(1, 99)] : List (Nat × Nat)) →
      (false = true → Reg.find_component (⟨1, [], 1, ⟨[1], [0, 0]⟩,
          [(1, ⟨⟨[1], [0, 0]⟩, [10]⟩)]⟩ : Reg Nat) f 1 = some v) ∧
      (false = false → Reg.exists_component (⟨1, [], 1, ⟨[1], [0, 0]⟩,
          [(1, ⟨⟨[1], [0, 0]⟩, [10]⟩)]⟩ : Reg Nat) f 1 = true →
        Reg.find_component (⟨1, [], 1, ⟨[1], [0, 0]⟩,
          [(1, ⟨⟨[1], [0, 0]⟩, [10]⟩)]⟩ : Reg Nat) f 1
          = Reg.find_component (⟨1, [], 1, ⟨[1], [0, 0]⟩,
          [(1, ⟨⟨[1], [0, 0]⟩, [10]⟩)]⟩ : Reg Nat) f 1) ∧
      (false = false → Reg.exists_component (⟨1, [], 1, ⟨[1], [0, 0]⟩,
          [(1, ⟨⟨[1], [0, 0]⟩, [10]⟩)]⟩ : Reg Nat) f 1 = false →
        Reg.find_component (⟨1, [], 1, ⟨[1], [0, 0]⟩,
          [(1, ⟨⟨[1], [0, 0]⟩, [10]⟩)]⟩ : Reg Nat) f 1 = some v)) ∧
    (∀ f, f ∉ ([(1, 99)] : List (Nat × Nat)).map Prod.fst →
      Reg.find_storage (⟨1, [], 1, ⟨[1], [0, 0]⟩,
          [(1, ⟨⟨[1], [0, 0]⟩, [10]⟩)]⟩ : Reg Nat) f
        = Reg.find_storage (⟨1, [], 1, ⟨[1], [0, 0]⟩,
          [(1, ⟨⟨[1], [0, 0]⟩, [10]⟩)]⟩ : Reg Nat) f) :=
  apply_to_entity_spec (M := 64)
    (r := ⟨1, [], 1, ⟨[1], [0, 0]⟩, [(1, ⟨⟨[1], [0, 0]⟩, [10]⟩)]⟩)
    (by decide) (by decide) [(1, 99)] false
    ⟨1, [], 1, ⟨[1], [0, 0]⟩, [(1, ⟨⟨[1], [0, 0]⟩, [10]⟩)]⟩
    (by decide) rfl

end EcsHpp
